import Mathlib

set_option linter.unusedVariables false
set_option maxRecDepth 4000

/- Shallow embedding of the trait-machine bootloader protocol of this
   repository: the example host/client pair in examples/bootloader/src/main.rs
   and the pieces of the generic skeleton in src/main.rs that the claims need.

   Conventions of the embedding:
   * usize is modeled as Nat; a byte is modeled as Nat, the erased byte being
     0xFF = 255.
   * The pair of tokio channels is modeled by explicit message queues: each
     actor runs against a PState holding its private state, the list of
     not-yet-consumed incoming messages and the list of messages sent so far.
     recv on an exhausted inbox models a closed channel and yields Err,
     matching Receiver::recv returning None; send is modeled as always
     succeeding (the protocol assumes a reliable ordered channel).
   * A step returns none to model a panic (the assert_eq in Client::chunk_write
     saying WRITING NON ERASED FLASH, the assert_eq in Host::erase_sector, or
     the out-of-bounds slice in Host::write_next_chunk), it returns
     some (Except.error (), s) for Err(()) and some (Except.ok a, s) for Ok(a).
   * The while loops of bootload_inner are modeled by explicit recursion.  The
     outer sector loop takes a fuel argument and maps fuel exhaustion to Err
     (an artifact never reached with sufficient fuel).  The inner chunk loop
     recurses on the measure sector_end - now; an iteration that would not
     advance (write_next_chunk returning 0, impossible for both machines of
     the source) is mapped to Err, corresponding to the loop never finishing. -/

variable {In Out σ α β : Type}

/-- Execution state of one actor: its private state, the incoming messages it
has not consumed yet, and the messages it has sent so far (in order). -/
structure PState (In Out σ : Type) where
  st : σ
  inbox : List In
  outbox : List Out
deriving DecidableEq, Repr

/-- Semantics of one async step of an actor: none models a panic,
some (Except.error (), s) models Err(()), some (Except.ok a, s) models Ok(a). -/
def TMM (In Out σ α : Type) : Type :=
  PState In Out σ → Option (Except Unit α × PState In Out σ)

/-- Ok(a) without touching the state. -/
def tmPure (a : α) : TMM In Out σ α := fun s => some (Except.ok a, s)

/-- Err(()). -/
def tmErr : TMM In Out σ α := fun s => some (Except.error (), s)

/-- Sequencing with the semantics of the ? operator: errors and panics
short-circuit. -/
def tmBind (m : TMM In Out σ α) (f : α → TMM In Out σ β) : TMM In Out σ β := fun s =>
  match m s with
  | none => none
  | some (Except.error e, s') => some (Except.error e, s')
  | some (Except.ok a, s') => f a s'

/-- Wire type Host2Client of examples/bootloader/src/main.rs. -/
inductive Host2Client where
  | Start (total_size : Nat)
  | EraseSector (addr : Nat) (len : Nat)
  | WriteData (addr : Nat) (data : List Nat)
  | Boot
  | Abort
deriving DecidableEq, Repr

/-- Wire type Client2Host of examples/bootloader/src/main.rs. -/
inductive Client2Host where
  | ErrorReset
  | Starting
  | ChunkWritten
  | SectorErased
  | Booting
deriving DecidableEq, Repr

/-- The Host struct (the channel is modeled by PState). -/
structure Host where
  image : List Nat
  position : Nat
deriving DecidableEq, Repr

/-- The Client struct (the channel is modeled by PState). -/
structure Client where
  position : Nat
  image_len : Option Nat
  flash : List Nat
deriving DecidableEq, Repr

/-- The TraitMachine trait: consts plus the joint state transitions.
next_sector takes &mut self in the source but both implementations leave
self unchanged, so it is modeled as a pure read. -/
structure TraitMachine (In Out σ : Type) where
  SECTOR_SIZE : Nat
  CHUNK_SIZE : Nat
  next_sector : σ → Option Nat
  start : TMM In Out σ Nat
  erase_sector : Nat → Nat → TMM In Out σ Unit
  write_next_chunk : TMM In Out σ Nat
  boot : TMM In Out σ Unit
  abort : TMM In Out σ Unit

/-- Host::next_sector. -/
def Host.next_sector (h : Host) : Option Nat :=
  if h.position < h.image.length then some h.position else none

/-- Host::start: send Start{total_size = image.len()}, await Starting. -/
def Host.start : TMM Client2Host Host2Client Host Nat := fun s =>
  let s1 : PState Client2Host Host2Client Host :=
    { s with outbox := s.outbox ++ [Host2Client.Start s.st.image.length] }
  match s1.inbox with
  | [] => some (Except.error (), s1)
  | Client2Host.Starting :: rest => some (Except.ok s.st.image.length, { s1 with inbox := rest })
  | _ :: rest => some (Except.error (), { s1 with inbox := rest })

/-- Host::erase_sector: assert_eq len SECTOR_SIZE (a panic when violated),
send EraseSector, await SectorErased. -/
def Host.erase_sector (start len : Nat) : TMM Client2Host Host2Client Host Unit := fun s =>
  if len = 4096 then
    let s1 : PState Client2Host Host2Client Host :=
      { s with outbox := s.outbox ++ [Host2Client.EraseSector start len] }
    match s1.inbox with
    | [] => some (Except.error (), s1)
    | Client2Host.SectorErased :: rest => some (Except.ok (), { s1 with inbox := rest })
    | _ :: rest => some (Except.error (), { s1 with inbox := rest })
  else none

/-- Host::write_next_chunk: past the image end the cursor advances silently;
otherwise the slice image[position..][..256] (a panic when fewer than 256
bytes remain) is sent as WriteData, the cursor advances, then ChunkWritten is
awaited. -/
def Host.write_next_chunk : TMM Client2Host Host2Client Host Nat := fun s =>
  if s.st.image.length ≤ s.st.position then
    some (Except.ok 256, { s with st := { s.st with position := s.st.position + 256 } })
  else
    if s.st.position + 256 ≤ s.st.image.length then
      let data := (s.st.image.drop s.st.position).take 256
      let s1 : PState Client2Host Host2Client Host :=
        { st := { s.st with position := s.st.position + 256 },
          inbox := s.inbox,
          outbox := s.outbox ++ [Host2Client.WriteData s.st.position data] }
      match s1.inbox with
      | [] => some (Except.error (), s1)
      | Client2Host.ChunkWritten :: rest => some (Except.ok 256, { s1 with inbox := rest })
      | _ :: rest => some (Except.error (), { s1 with inbox := rest })
    else none

/-- Host::boot: send Boot, await Booting. -/
def Host.boot : TMM Client2Host Host2Client Host Unit := fun s =>
  let s1 : PState Client2Host Host2Client Host :=
    { s with outbox := s.outbox ++ [Host2Client.Boot] }
  match s1.inbox with
  | [] => some (Except.error (), s1)
  | Client2Host.Booting :: rest => some (Except.ok (), { s1 with inbox := rest })
  | _ :: rest => some (Except.error (), { s1 with inbox := rest })

/-- Host::abort: send Abort (one way, nothing awaited). -/
def Host.abort : TMM Client2Host Host2Client Host Unit := fun s =>
  some (Except.ok (), { s with outbox := s.outbox ++ [Host2Client.Abort] })

/-- Client::TOTAL_SIZE = 32 * 1024. -/
def Client.TOTAL_SIZE : Nat := 32 * 1024

/-- Client::next_sector: Some(position) exactly when image_len is known,
position < TOTAL_SIZE and position < image_len. -/
def Client.next_sector (c : Client) : Option Nat :=
  match c.image_len with
  | none => none
  | some len =>
    if c.position < Client.TOTAL_SIZE ∧ c.position < len then some c.position else none

/-- Client::start: await Start{total_size}; accept only when
total_size <= TOTAL_SIZE, record image_len, reply Starting. -/
def Client.start : TMM Host2Client Client2Host Client Nat := fun s =>
  match s.inbox with
  | Host2Client.Start total_size :: rest =>
    if total_size ≤ Client.TOTAL_SIZE then
      some (Except.ok total_size,
        { st := { s.st with image_len := some total_size },
          inbox := rest,
          outbox := s.outbox ++ [Client2Host.Starting] })
    else some (Except.error (), { s with inbox := rest })
  | [] => some (Except.error (), s)
  | _ :: rest => some (Except.error (), { s with inbox := rest })

/-- Client::sector_erase: flash.get_mut(start..start+len) (Err when out of
range), then every byte of the range becomes 0xFF. -/
def Client.sector_erase (flash : List Nat) (start len : Nat) : Except Unit (List Nat) :=
  if start + len ≤ flash.length then
    Except.ok (flash.take start ++ List.replicate len 255 ++ flash.drop (start + len))
  else Except.error ()

/-- Client::chunk_write: flash.get_mut(start..start+data.len()) (Err when out
of range), then each byte is asserted to be 0xFF (the WRITING NON ERASED FLASH
panic, modeled by none, when violated) and overwritten with the data. -/
def Client.chunk_write (flash : List Nat) (start : Nat) (data : List Nat) :
    Option (Except Unit (List Nat)) :=
  if start + data.length ≤ flash.length then
    if (flash.drop start).take data.length = List.replicate data.length 255 then
      some (Except.ok (flash.take start ++ data ++ flash.drop (start + data.length)))
    else none
  else some (Except.error ())

/-- Client::erase_sector: await EraseSector{addr, len}; accept only when addr
equals the sector_start argument (which bootload_inner takes from the Client's
own next_sector, i.e. its cursor) and len equals the sector_len argument; then
physically erase and reply SectorErased. -/
def Client.erase_sector (sector_start sector_len : Nat) :
    TMM Host2Client Client2Host Client Unit := fun s =>
  match s.inbox with
  | Host2Client.EraseSector addr len :: rest =>
    if addr = sector_start ∧ len = sector_len then
      match Client.sector_erase s.st.flash sector_start sector_len with
      | Except.error () => some (Except.error (), { s with inbox := rest })
      | Except.ok f =>
        some (Except.ok (),
          { st := { s.st with flash := f },
            inbox := rest,
            outbox := s.outbox ++ [Client2Host.SectorErased] })
    else some (Except.error (), { s with inbox := rest })
  | [] => some (Except.error (), s)
  | _ :: rest => some (Except.error (), { s with inbox := rest })

/-- Client::write_next_chunk: await WriteData{addr, data}; reject when addr
differs from the cursor or data.len() differs from CHUNK_SIZE; otherwise
chunk_write, advance the cursor by CHUNK_SIZE, reply ChunkWritten, return
CHUNK_SIZE. -/
def Client.write_next_chunk : TMM Host2Client Client2Host Client Nat := fun s =>
  match s.inbox with
  | Host2Client.WriteData addr data :: rest =>
    if addr = s.st.position then
      if data.length = 256 then
        match Client.chunk_write s.st.flash addr data with
        | none => none
        | some (Except.error ()) => some (Except.error (), { s with inbox := rest })
        | some (Except.ok f) =>
          some (Except.ok 256,
            { st := { s.st with flash := f, position := s.st.position + 256 },
              inbox := rest,
              outbox := s.outbox ++ [Client2Host.ChunkWritten] })
      else some (Except.error (), { s with inbox := rest })
    else some (Except.error (), { s with inbox := rest })
  | [] => some (Except.error (), s)
  | _ :: rest => some (Except.error (), { s with inbox := rest })

/-- Client::boot: await Boot, reply Booting. -/
def Client.boot : TMM Host2Client Client2Host Client Unit := fun s =>
  match s.inbox with
  | Host2Client.Boot :: rest =>
    some (Except.ok (),
      { s with inbox := rest, outbox := s.outbox ++ [Client2Host.Booting] })
  | [] => some (Except.error (), s)
  | _ :: rest => some (Except.error (), { s with inbox := rest })

/-- Client::abort: send ErrorReset, ignoring a send failure, and return Ok. -/
def Client.abort : TMM Host2Client Client2Host Client Unit := fun s =>
  some (Except.ok (), { s with outbox := s.outbox ++ [Client2Host.ErrorReset] })

/-- The TraitMachine implementation of the Host. -/
def Host.machine : TraitMachine Client2Host Host2Client Host where
  SECTOR_SIZE := 4096
  CHUNK_SIZE := 256
  next_sector := Host.next_sector
  start := Host.start
  erase_sector := Host.erase_sector
  write_next_chunk := Host.write_next_chunk
  boot := Host.boot
  abort := Host.abort

/-- The TraitMachine implementation of the Client. -/
def Client.machine : TraitMachine Host2Client Client2Host Client where
  SECTOR_SIZE := 4096
  CHUNK_SIZE := 256
  next_sector := Client.next_sector
  start := Client.start
  erase_sector := Client.erase_sector
  write_next_chunk := Client.write_next_chunk
  boot := Client.boot
  abort := Client.abort

/-- The inner chunk loop of bootload_inner:
while now < sector_end and now < image_end, now += write_next_chunk()?.
It recurses on sector_end - now; a step that would not advance is mapped to
Err (for both machines write_next_chunk returns CHUNK_SIZE = 256, so this
branch is never taken). -/
def chunkLoopGo (tm : TraitMachine In Out σ) (sector_end image_end : Nat) (now : Nat) :
    TMM In Out σ Unit :=
  if h : now < sector_end ∧ now < image_end then
    tmBind tm.write_next_chunk fun k =>
      if hk : k = 0 then tmErr else chunkLoopGo tm sector_end image_end (now + k)
  else tmPure ()
termination_by sector_end - now
decreasing_by omega

/-- The outer sector loop of bootload_inner:
while let Some(start) = next_sector() { erase_sector(start, SECTOR_SIZE)?;
the chunk loop }.  Fuel exhaustion with the loop still running is Err. -/
def sectorLoopGo (tm : TraitMachine In Out σ) (image_end : Nat) : Nat → TMM In Out σ Unit
  | 0 => fun s =>
    match tm.next_sector s.st with
    | none => some (Except.ok (), s)
    | some _ => some (Except.error (), s)
  | sfuel + 1 => fun s =>
    match tm.next_sector s.st with
    | none => some (Except.ok (), s)
    | some start =>
      tmBind (tm.erase_sector start tm.SECTOR_SIZE)
        (fun _ => tmBind (chunkLoopGo tm (start + tm.SECTOR_SIZE) image_end start)
          (fun _ => sectorLoopGo tm image_end sfuel)) s

/-- bootload_inner: image_end = start()?, the sector loop, then boot()?. -/
def bootload_inner (tm : TraitMachine In Out σ) (sfuel : Nat) : TMM In Out σ Unit :=
  tmBind tm.start fun image_end =>
    tmBind (sectorLoopGo tm image_end sfuel) fun _ => tm.boot

/-- bootload: on an Ok from bootload_inner return Ok; on an Err run abort()
(with the ? operator, so an abort error is still an error) and return Err. -/
def bootload (tm : TraitMachine In Out σ) (sfuel : Nat) : TMM In Out σ Unit := fun s =>
  match bootload_inner tm sfuel s with
  | none => none
  | some (Except.ok a, s') => some (Except.ok a, s')
  | some (Except.error _, s') =>
    match tm.abort s' with
    | none => none
    | some (Except.ok _, s'') => some (Except.error (), s'')
    | some (Except.error e, s'') => some (Except.error e, s'')

/-- Wire type ToBootloader of the generic skeleton src/main.rs (the chunk data
is modeled as a list of bytes, the crc as a Nat). -/
inductive ToBootloader where
  | Start
  | StartSector (start len : Nat)
  | Chunk (start : Nat) (data : List Nat) (crc : Nat)
deriving DecidableEq, Repr

/-- Wire type FromBootloader of the generic skeleton src/main.rs. -/
inductive FromBootloader where
  | Ok
  | ErrorReset
  | ErasedSector (n : Nat)
  | WroteChunk
deriving DecidableEq, Repr

/-- check_crc of the generic skeleton src/main.rs: the placeholder accepts
every (data, crc) pair. -/
def check_crc (data : List Nat) (crc : Nat) : Except Unit Unit := Except.ok ()

/-- The sector-header validation of Bootloader::step_sector in src/main.rs:
good &= start % SECTOR_SIZE == 0; good &= len == SECTOR_SIZE;
good &= start >= TOTAL_RANGE.start.  It is a function of the received message
and the geometry constants only; the skeleton Bootloader has no cursor field,
so no cursor is consulted. -/
def stepSectorHeaderGood (sectorSize rangeStart : Nat) (start len : Nat) : Bool :=
  decide (start % sectorSize = 0) && decide (len = sectorSize) && decide (rangeStart ≤ start)

/-- The per-chunk validation of Bootloader::step_sector in src/main.rs:
cstart == now, cdata.len() != 0, then check_crc; only an Ok result reaches
hw.write_chunk. -/
def stepChunkValidate (now : Nat) (msg : ToBootloader) : Except Unit (Nat × List Nat) :=
  match msg with
  | ToBootloader.Chunk cstart cdata ccrc =>
    if cstart = now ∧ cdata.length ≠ 0 then
      match check_crc cdata ccrc with
      | Except.ok () => Except.ok (cstart, cdata)
      | Except.error () => Except.error ()
    else Except.error ()
  | _ => Except.error ()

/-- The canonical flash contents of a joint run that has written the image up
to address q into an initially all-erased 32 KiB flash. -/
def flashAt (image : List Nat) (q : Nat) : List Nat :=
  image.take q ++ List.replicate (32768 - q) 255

/-- The WriteData messages a successful host sends for n consecutive chunks
starting at address q. -/
def writeMsgs (image : List Nat) : Nat → Nat → List Host2Client
  | _, 0 => []
  | q, n + 1 =>
    Host2Client.WriteData q ((image.drop q).take 256) :: writeMsgs image (q + 256) n

/-- All Host2Client messages of the sector loop of a successful run, from
sector position p on (len is the image length). -/
def hostSectorMsgs (image : List Nat) (len p : Nat) : List Host2Client :=
  if p < len then
    Host2Client.EraseSector p 4096 ::
      (writeMsgs image p ((min (p + 4096) len - p) / 256) ++
        hostSectorMsgs image len (min (p + 4096) len))
  else []
termination_by len - p
decreasing_by omega

/-- All Client2Host messages of the sector loop of a successful run, from
sector position p on. -/
def clientSectorMsgs (len p : Nat) : List Client2Host :=
  if p < len then
    Client2Host.SectorErased ::
      (List.replicate ((min (p + 4096) len - p) / 256) Client2Host.ChunkWritten ++
        clientSectorMsgs len (min (p + 4096) len))
  else []
termination_by len - p
decreasing_by omega

/-- The full Host2Client trace of a successful run. -/
def hostTrace (image : List Nat) : List Host2Client :=
  Host2Client.Start image.length ::
    (hostSectorMsgs image image.length 0 ++ [Host2Client.Boot])

/-- The full Client2Host trace of a successful run. -/
def clientTrace (len : Nat) : List Client2Host :=
  Client2Host.Starting :: (clientSectorMsgs len 0 ++ [Client2Host.Booting])

/-- A Client whose whole 32 KiB flash is erased, before any exchange. -/
def client0 : Client :=
  { position := 0, image_len := none, flash := List.replicate 32768 255 }

/-- Restatement of the amended claim C3 in its own words, to be compared with
Client.write_next_chunk: a message is validated exactly when it is
WriteData{addr, data} with addr equal to the cursor and data of chunk length;
a validated message whose target range lies inside the flash and is wholly
erased is written, the cursor advances by the chunk size and ChunkWritten is
the reply; a validated message whose range falls outside the flash is an
error that changes neither flash nor cursor; a validated message hitting a
non-erased byte is the fatal non-erased-write fault; every other message is
an error that changes neither flash nor cursor. -/
def write_next_chunkSpec (s : PState Host2Client Client2Host Client) :
    Option (Except Unit Nat × PState Host2Client Client2Host Client) :=
  match s.inbox with
  | Host2Client.WriteData addr data :: rest =>
    if addr = s.st.position ∧ data.length = 256 then
      if s.st.position + 256 ≤ s.st.flash.length then
        if (s.st.flash.drop s.st.position).take 256 = List.replicate 256 255 then
          some (Except.ok 256,
            { st := { position := s.st.position + 256,
                      image_len := s.st.image_len,
                      flash := s.st.flash.take s.st.position ++ data ++
                               s.st.flash.drop (s.st.position + 256) },
              inbox := rest,
              outbox := s.outbox ++ [Client2Host.ChunkWritten] })
        else none
      else some (Except.error (), { s with inbox := rest })
    else some (Except.error (), { s with inbox := rest })
  | [] => some (Except.error (), s)
  | _ :: rest => some (Except.error (), { s with inbox := rest })

/- ------------------------------------------------------------------ -/
/- Helper lemmas.                                                      -/
/- ------------------------------------------------------------------ -/

theorem tmBind_ok {m : TMM In Out σ α} {f : α → TMM In Out σ β}
    {s s' : PState In Out σ} {a : α} (h : m s = some (Except.ok a, s')) :
    tmBind m f s = f a s' := by
  simp only [tmBind, h]

theorem tmBind_err {m : TMM In Out σ α} {f : α → TMM In Out σ β}
    {s s' : PState In Out σ} {e : Unit} (h : m s = some (Except.error e, s')) :
    tmBind m f s = some (Except.error e, s') := by
  simp only [tmBind, h]

theorem tmBind_none {m : TMM In Out σ α} {f : α → TMM In Out σ β}
    {s : PState In Out σ} (h : m s = none) :
    tmBind m f s = none := by
  simp only [tmBind, h]

theorem chunkLoopGo_stop (tm : TraitMachine In Out σ) (se ie now : Nat)
    (h : ¬(now < se ∧ now < ie)) (s : PState In Out σ) :
    chunkLoopGo tm se ie now s = some (Except.ok (), s) := by
  rw [chunkLoopGo]
  rw [dif_neg h]
  rfl

theorem chunkLoopGo_step (tm : TraitMachine In Out σ) (se ie now : Nat)
    (h : now < se ∧ now < ie) :
    chunkLoopGo tm se ie now =
      tmBind tm.write_next_chunk fun k =>
        if hk : k = 0 then tmErr else chunkLoopGo tm se ie (now + k) := by
  rw [chunkLoopGo]
  rw [dif_pos h]

theorem flashAt_length (image : List Nat) (q : Nat) (h1 : q ≤ image.length)
    (h2 : q ≤ 32768) : (flashAt image q).length = 32768 := by
  simp [flashAt, List.length_take]
  omega

theorem flashAt_zero (image : List Nat) : flashAt image 0 = List.replicate 32768 255 := rfl

theorem flashAt_take (image : List Nat) (q : Nat) (h1 : q ≤ image.length) :
    (flashAt image q).take q = image.take q := by
  rw [flashAt, List.take_append_eq_append_take, List.take_take]
  simp [List.length_take]
  omega

theorem flashAt_drop (image : List Nat) (q d : Nat) (h1 : q ≤ image.length)
    (h2 : q ≤ d) : (flashAt image q).drop d = List.replicate (32768 - d) 255 := by
  rw [flashAt, List.drop_append_eq_append_drop]
  have hlen : (image.take q).length = q := by simp [List.length_take]; omega
  rw [List.drop_eq_nil_of_le (by omega), List.drop_replicate]
  rw [List.nil_append, hlen]
  congr 1
  omega

theorem flashAt_erased (image : List Nat) (q : Nat) (h1 : q ≤ image.length)
    (h2 : q + 256 ≤ 32768) :
    ((flashAt image q).drop q).take 256 = List.replicate 256 255 := by
  rw [flashAt_drop image q q h1 le_rfl, List.take_replicate]
  congr 1
  omega

/-- Erasing the next sector of a canonically half-written all-erased flash
leaves it unchanged. -/
theorem sector_erase_flashAt (image : List Nat) (p : Nat) (h1 : p ≤ image.length)
    (h2 : p + 4096 ≤ 32768) :
    Client.sector_erase (flashAt image p) p 4096 = Except.ok (flashAt image p) := by
  rw [Client.sector_erase, if_pos (by rw [flashAt_length image p h1 (by omega)]; omega)]
  rw [flashAt_take image p h1, flashAt_drop image p (p + 4096) h1 (by omega)]
  rw [flashAt, List.append_assoc]
  congr 1
  rw [← List.replicate_add]
  have h3 : 4096 + (32768 - (p + 4096)) = 32768 - p := by omega
  rw [h3]

/-- Writing the next canonical chunk advances the canonical flash. -/
theorem chunk_write_flashAt (image : List Nat) (q : Nat)
    (h1 : q + 256 ≤ image.length) (h2 : q + 256 ≤ 32768) :
    Client.chunk_write (flashAt image q) q ((image.drop q).take 256) =
      some (Except.ok (flashAt image (q + 256))) := by
  have hdata : ((image.drop q).take 256).length = 256 := by
    simp [List.length_take, List.length_drop]
    omega
  rw [Client.chunk_write, hdata,
    if_pos (by rw [flashAt_length image q (by omega) (by omega)]; omega),
    if_pos (flashAt_erased image q (by omega) h2)]
  rw [flashAt_take image q (by omega), flashAt_drop image q (q + 256) (by omega) (by omega)]
  rw [flashAt, ← List.take_add]

theorem Host_machine_next : Host.machine.next_sector = Host.next_sector := rfl

theorem Host_machine_start : Host.machine.start = Host.start := rfl

theorem Host_machine_erase : Host.machine.erase_sector = Host.erase_sector := rfl

theorem Host_machine_wnc : Host.machine.write_next_chunk = Host.write_next_chunk := rfl

theorem Host_machine_boot : Host.machine.boot = Host.boot := rfl

theorem Host_machine_abort : Host.machine.abort = Host.abort := rfl

theorem Host_machine_sector : Host.machine.SECTOR_SIZE = 4096 := rfl

theorem Client_machine_next : Client.machine.next_sector = Client.next_sector := rfl

theorem Client_machine_start : Client.machine.start = Client.start := rfl

theorem Client_machine_erase : Client.machine.erase_sector = Client.erase_sector := rfl

theorem Client_machine_wnc : Client.machine.write_next_chunk = Client.write_next_chunk := rfl

theorem Client_machine_boot : Client.machine.boot = Client.boot := rfl

theorem Client_machine_abort : Client.machine.abort = Client.abort := rfl

theorem Client_machine_sector : Client.machine.SECTOR_SIZE = 4096 := rfl

theorem Host_start_ok (image : List Nat) (pos : Nat) (rest : List Client2Host)
    (out : List Host2Client) :
    Host.start ⟨⟨image, pos⟩, Client2Host.Starting :: rest, out⟩ =
      some (Except.ok image.length,
        ⟨⟨image, pos⟩, rest, out ++ [Host2Client.Start image.length]⟩) := rfl

theorem Host_erase_ok (image : List Nat) (pos start : Nat) (rest : List Client2Host)
    (out : List Host2Client) :
    Host.erase_sector start 4096 ⟨⟨image, pos⟩, Client2Host.SectorErased :: rest, out⟩ =
      some (Except.ok (),
        ⟨⟨image, pos⟩, rest, out ++ [Host2Client.EraseSector start 4096]⟩) := rfl

theorem Host_wnc_send_ok (image : List Nat) (q : Nat) (rest : List Client2Host)
    (out : List Host2Client) (h2 : q + 256 ≤ image.length) :
    Host.write_next_chunk ⟨⟨image, q⟩, Client2Host.ChunkWritten :: rest, out⟩ =
      some (Except.ok 256, ⟨⟨image, q + 256⟩, rest,
        out ++ [Host2Client.WriteData q ((image.drop q).take 256)]⟩) := by
  simp only [Host.write_next_chunk]
  rw [if_neg (by omega), if_pos (by omega)]

theorem Host_boot_ok (image : List Nat) (pos : Nat) (rest : List Client2Host)
    (out : List Host2Client) :
    Host.boot ⟨⟨image, pos⟩, Client2Host.Booting :: rest, out⟩ =
      some (Except.ok (), ⟨⟨image, pos⟩, rest, out ++ [Host2Client.Boot]⟩) := rfl

theorem Client_start_ok (c : Client) (ts : Nat) (rest : List Host2Client)
    (out : List Client2Host) (h : ts ≤ 32768) :
    Client.start ⟨c, Host2Client.Start ts :: rest, out⟩ =
      some (Except.ok ts,
        ⟨⟨c.position, some ts, c.flash⟩, rest, out ++ [Client2Host.Starting]⟩) := by
  simp only [Client.start]
  rw [if_pos (show ts ≤ Client.TOTAL_SIZE by rw [Client.TOTAL_SIZE]; omega)]

theorem Client_erase_ok (image : List Nat) (p : Nat) (rest : List Host2Client)
    (out : List Client2Host) (il : Option Nat)
    (h1 : p ≤ image.length) (h2 : p + 4096 ≤ 32768) :
    Client.erase_sector p 4096 ⟨⟨p, il, flashAt image p⟩,
        Host2Client.EraseSector p 4096 :: rest, out⟩ =
      some (Except.ok (), ⟨⟨p, il, flashAt image p⟩, rest,
        out ++ [Client2Host.SectorErased]⟩) := by
  simp only [Client.erase_sector]
  rw [if_pos (And.intro trivial trivial)]
  rw [sector_erase_flashAt image p h1 h2]

theorem Client_wnc_canonical (image : List Nat) (q : Nat) (rest : List Host2Client)
    (out : List Client2Host) (il : Option Nat)
    (h1 : q + 256 ≤ image.length) (h2 : q + 256 ≤ 32768) :
    Client.write_next_chunk ⟨⟨q, il, flashAt image q⟩,
        Host2Client.WriteData q ((image.drop q).take 256) :: rest, out⟩ =
      some (Except.ok 256, ⟨⟨q + 256, il, flashAt image (q + 256)⟩, rest,
        out ++ [Client2Host.ChunkWritten]⟩) := by
  have hdata : ((image.drop q).take 256).length = 256 := by
    simp [List.length_take, List.length_drop]
    omega
  simp only [Client.write_next_chunk]
  rw [if_pos trivial, if_pos hdata]
  rw [chunk_write_flashAt image q h1 h2]

theorem Client_boot_ok (c : Client) (rest : List Host2Client) (out : List Client2Host) :
    Client.boot ⟨c, Host2Client.Boot :: rest, out⟩ =
      some (Except.ok (), ⟨c, rest, out ++ [Client2Host.Booting]⟩) := rfl

/-- The chunk loop of a successful host run: with n ChunkWritten replies
queued it sends the n WriteData messages for addresses q, q+256, ... and
stops at min sector_end image_end. -/
theorem host_chunk_run (image : List Nat) (se : Nat) (n : Nat) :
    ∀ (q : Nat) (cRest : List Client2Host) (out : List Host2Client),
      q + 256 * n = min se image.length →
      chunkLoopGo Host.machine se image.length q
          ⟨⟨image, q⟩, List.replicate n Client2Host.ChunkWritten ++ cRest, out⟩ =
        some (Except.ok (),
          ⟨⟨image, min se image.length⟩, cRest, out ++ writeMsgs image q n⟩) := by
  induction n with
  | zero =>
    intro q cRest out h
    rw [chunkLoopGo_stop Host.machine se image.length q (by omega)]
    have hq : min se image.length = q := by omega
    rw [hq]
    simp [writeMsgs]
  | succ n ih =>
    intro q cRest out h
    rw [chunkLoopGo_step Host.machine se image.length q (by constructor <;> omega)]
    rw [List.replicate_succ, List.cons_append, Host_machine_wnc]
    simp only [tmBind_ok (Host_wnc_send_ok image q (List.replicate n Client2Host.ChunkWritten
      ++ cRest) out (by omega))]
    rw [dif_neg (by omega : ¬(256 = 0))]
    rw [ih (q + 256) cRest
      (out ++ [Host2Client.WriteData q ((image.drop q).take 256)]) (by omega)]
    simp [writeMsgs, List.append_assoc]

/-- The chunk loop of a successful client run: fed the n canonical WriteData
messages it writes them, replies n ChunkWritten and stops at
min sector_end image_end with the canonically advanced flash. -/
theorem client_chunk_run (image : List Nat) (se : Nat) (hse : se ≤ 32768) (n : Nat) :
    ∀ (q : Nat) (hRest : List Host2Client) (out : List Client2Host) (il : Option Nat),
      q + 256 * n = min se image.length →
      chunkLoopGo Client.machine se image.length q
          ⟨⟨q, il, flashAt image q⟩, writeMsgs image q n ++ hRest, out⟩ =
        some (Except.ok (),
          ⟨⟨min se image.length, il, flashAt image (min se image.length)⟩, hRest,
            out ++ List.replicate n Client2Host.ChunkWritten⟩) := by
  induction n with
  | zero =>
    intro q hRest out il h
    rw [chunkLoopGo_stop Client.machine se image.length q (by omega)]
    have hq : min se image.length = q := by omega
    rw [hq]
    simp [writeMsgs]
  | succ n ih =>
    intro q hRest out il h
    rw [chunkLoopGo_step Client.machine se image.length q (by constructor <;> omega)]
    rw [writeMsgs, List.cons_append, Client_machine_wnc]
    simp only [tmBind_ok (Client_wnc_canonical image q
      (writeMsgs image (q + 256) n ++ hRest) out il (by omega) (by omega))]
    rw [dif_neg (by omega : ¬(256 = 0))]
    rw [ih (q + 256) hRest (out ++ [Client2Host.ChunkWritten]) il (by omega)]
    simp [List.replicate_succ, List.append_assoc]

theorem hostSectorMsgs_nil (image : List Nat) (len p : Nat) (h : ¬ p < len) :
    hostSectorMsgs image len p = [] := by
  rw [hostSectorMsgs, if_neg h]

theorem clientSectorMsgs_nil (len p : Nat) (h : ¬ p < len) :
    clientSectorMsgs len p = [] := by
  rw [clientSectorMsgs, if_neg h]

theorem sectorLoopGo_done (tm : TraitMachine In Out σ) (ie : Nat) (sfuel : Nat)
    (s : PState In Out σ) (h : tm.next_sector s.st = none) :
    sectorLoopGo tm ie sfuel s = some (Except.ok (), s) := by
  cases sfuel <;> simp only [sectorLoopGo, h]

theorem Host_next_some (image : List Nat) (p : Nat) (h : p < image.length) :
    Host.next_sector ⟨image, p⟩ = some p := by
  rw [Host.next_sector]
  exact if_pos h

theorem Host_next_none (image : List Nat) (p : Nat) (h : ¬ p < image.length) :
    Host.next_sector ⟨image, p⟩ = none := by
  rw [Host.next_sector]
  exact if_neg h

theorem Client_next_some (p len : Nat) (flash : List Nat)
    (h1 : p < 32768) (h2 : p < len) :
    Client.next_sector ⟨p, some len, flash⟩ = some p := by
  simp only [Client.next_sector, Client.TOTAL_SIZE]
  rw [if_pos ⟨by omega, h2⟩]

theorem Client_next_none (p len : Nat) (flash : List Nat) (h2 : ¬ p < len) :
    Client.next_sector ⟨p, some len, flash⟩ = none := by
  simp only [Client.next_sector, Client.TOTAL_SIZE]
  rw [if_neg (by omega)]

/-- The sector loop of a successful host run, from an aligned position p on:
fed the canonical replies it emits the canonical messages and ends at the
image end. -/
theorem host_sector_run (image : List Nat) (hmul : image.length % 256 = 0) :
    ∀ (sfuel : Nat) (p : Nat) (cRest : List Client2Host) (out : List Host2Client),
      p ≤ image.length → (p % 4096 = 0 ∨ p = image.length) →
      image.length ≤ p + 4096 * sfuel →
      sectorLoopGo Host.machine image.length sfuel
          ⟨⟨image, p⟩, clientSectorMsgs image.length p ++ cRest, out⟩ =
        some (Except.ok (),
          ⟨⟨image, image.length⟩, cRest, out ++ hostSectorMsgs image image.length p⟩) := by
  intro sfuel
  induction sfuel with
  | zero =>
    intro p cRest out hple halign hfuel
    have hp : p = image.length := by omega
    subst hp
    rw [clientSectorMsgs_nil _ _ (by omega), hostSectorMsgs_nil _ _ _ (by omega)]
    rw [sectorLoopGo_done Host.machine image.length 0 _
      (by rw [Host_machine_next]; exact Host_next_none image _ (by omega))]
    simp
  | succ sfuel ih =>
    intro p cRest out hple halign hfuel
    by_cases hplt : p < image.length
    · have hpal : p % 4096 = 0 := by omega
      have he256 : (min (p + 4096) image.length - p) % 256 = 0 := by omega
      have hn : p + 256 * ((min (p + 4096) image.length - p) / 256) =
          min (p + 4096) image.length := by omega
      rw [clientSectorMsgs, if_pos hplt]
      rw [hostSectorMsgs, if_pos hplt]
      simp only [sectorLoopGo, Host_machine_next, Host_next_some image p hplt,
        Host_machine_erase, Host_machine_sector]
      rw [List.cons_append, List.append_assoc]
      simp only [tmBind_ok (Host_erase_ok image p p
        (List.replicate ((min (p + 4096) image.length - p) / 256) Client2Host.ChunkWritten ++
          (clientSectorMsgs image.length (min (p + 4096) image.length) ++ cRest)) out)]
      simp only [tmBind_ok (host_chunk_run image (p + 4096)
        ((min (p + 4096) image.length - p) / 256) p
        (clientSectorMsgs image.length (min (p + 4096) image.length) ++ cRest)
        (out ++ [Host2Client.EraseSector p 4096]) hn)]
      rw [ih (min (p + 4096) image.length)
        cRest
        ((out ++ [Host2Client.EraseSector p 4096]) ++
          writeMsgs image p ((min (p + 4096) image.length - p) / 256))
        (by omega) (by omega) (by omega)]
      simp [List.append_assoc]
    · have hp : p = image.length := by omega
      subst hp
      rw [clientSectorMsgs_nil _ _ (by omega), hostSectorMsgs_nil _ _ _ (by omega)]
      rw [sectorLoopGo_done Host.machine image.length (sfuel + 1) _
        (by rw [Host_machine_next]; exact Host_next_none image _ (by omega))]
      simp

/-- The sector loop of a successful client run, from an aligned position p on:
fed the canonical messages it erases and writes sector by sector, replies the
canonical acknowledgements and ends at the image end with the canonically
written flash. -/
theorem client_sector_run (image : List Nat) (hmul : image.length % 256 = 0)
    (hle : image.length ≤ 32768) :
    ∀ (sfuel : Nat) (p : Nat) (hRest : List Host2Client) (out : List Client2Host),
      p ≤ image.length → (p % 4096 = 0 ∨ p = image.length) →
      image.length ≤ p + 4096 * sfuel →
      sectorLoopGo Client.machine image.length sfuel
          ⟨⟨p, some image.length, flashAt image p⟩,
            hostSectorMsgs image image.length p ++ hRest, out⟩ =
        some (Except.ok (),
          ⟨⟨image.length, some image.length, flashAt image image.length⟩, hRest,
            out ++ clientSectorMsgs image.length p⟩) := by
  intro sfuel
  induction sfuel with
  | zero =>
    intro p hRest out hple halign hfuel
    have hp : p = image.length := by omega
    subst hp
    rw [clientSectorMsgs_nil _ _ (by omega), hostSectorMsgs_nil _ _ _ (by omega)]
    rw [sectorLoopGo_done Client.machine image.length 0 _
      (by rw [Client_machine_next]; exact Client_next_none _ _ _ (by omega))]
    simp
  | succ sfuel ih =>
    intro p hRest out hple halign hfuel
    by_cases hplt : p < image.length
    · have hpal : p % 4096 = 0 := by omega
      have hp4096 : p + 4096 ≤ 32768 := by omega
      have he256 : (min (p + 4096) image.length - p) % 256 = 0 := by omega
      have hn : p + 256 * ((min (p + 4096) image.length - p) / 256) =
          min (p + 4096) image.length := by omega
      rw [hostSectorMsgs, if_pos hplt]
      rw [clientSectorMsgs, if_pos hplt]
      simp only [sectorLoopGo, Client_machine_next,
        Client_next_some p image.length _ (by omega) hplt,
        Client_machine_erase, Client_machine_sector]
      rw [List.cons_append, List.append_assoc]
      simp only [tmBind_ok (Client_erase_ok image p
        (writeMsgs image p ((min (p + 4096) image.length - p) / 256) ++
          (hostSectorMsgs image image.length (min (p + 4096) image.length) ++ hRest))
        out (some image.length) (by omega) hp4096)]
      simp only [tmBind_ok (client_chunk_run image (p + 4096) (by omega)
        ((min (p + 4096) image.length - p) / 256) p
        (hostSectorMsgs image image.length (min (p + 4096) image.length) ++ hRest)
        (out ++ [Client2Host.SectorErased]) (some image.length) hn)]
      rw [ih (min (p + 4096) image.length)
        hRest
        ((out ++ [Client2Host.SectorErased]) ++
          List.replicate ((min (p + 4096) image.length - p) / 256) Client2Host.ChunkWritten)
        (by omega) (by omega) (by omega)]
      simp [List.append_assoc]
    · have hp : p = image.length := by omega
      subst hp
      rw [clientSectorMsgs_nil _ _ (by omega), hostSectorMsgs_nil _ _ _ (by omega)]
      rw [sectorLoopGo_done Client.machine image.length (sfuel + 1) _
        (by rw [Client_machine_next]; exact Client_next_none _ _ _ (by omega))]
      simp

/-- A full host bootload_inner run against the canonical replies. -/
theorem host_inner_run (image : List Nat) (hmul : image.length % 256 = 0)
    (sfuel : Nat) (hfuel : image.length ≤ 4096 * sfuel)
    (cRest : List Client2Host) (out : List Host2Client) :
    bootload_inner Host.machine sfuel
        ⟨⟨image, 0⟩, clientTrace image.length ++ cRest, out⟩ =
      some (Except.ok (),
        ⟨⟨image, image.length⟩, cRest, out ++ hostTrace image⟩) := by
  rw [bootload_inner, Host_machine_start, clientTrace]
  rw [List.cons_append, List.append_assoc]
  simp only [tmBind_ok (Host_start_ok image 0
    (clientSectorMsgs image.length 0 ++ ([Client2Host.Booting] ++ cRest)) out)]
  simp only [tmBind_ok (host_sector_run image hmul sfuel 0
    ([Client2Host.Booting] ++ cRest) (out ++ [Host2Client.Start image.length])
    (by omega) (Or.inl (by omega)) (by omega))]
  rw [Host_machine_boot, List.singleton_append]
  rw [Host_boot_ok image image.length cRest
    ((out ++ [Host2Client.Start image.length]) ++ hostSectorMsgs image image.length 0)]
  rw [hostTrace]
  simp [List.append_assoc]

/-- A full client bootload_inner run against the canonical messages, from the
all-erased initial state. -/
theorem client_inner_run (image : List Nat) (hmul : image.length % 256 = 0)
    (hle : image.length ≤ 32768)
    (sfuel : Nat) (hfuel : image.length ≤ 4096 * sfuel)
    (hRest : List Host2Client) (out : List Client2Host) :
    bootload_inner Client.machine sfuel
        ⟨client0, hostTrace image ++ hRest, out⟩ =
      some (Except.ok (),
        ⟨⟨image.length, some image.length, flashAt image image.length⟩, hRest,
          out ++ clientTrace image.length⟩) := by
  rw [bootload_inner, Client_machine_start, hostTrace, client0]
  rw [List.cons_append, List.append_assoc]
  rw [tmBind_ok (Client_start_ok ⟨0, none, List.replicate 32768 255⟩ image.length
    (hostSectorMsgs image image.length 0 ++ ([Host2Client.Boot] ++ hRest)) out hle)]
  rw [← flashAt_zero image]
  rw [tmBind_ok (client_sector_run image hmul hle sfuel 0
    ([Host2Client.Boot] ++ hRest) (out ++ [Client2Host.Starting])
    (by omega) (Or.inl (by omega)) (by omega))]
  rw [Client_machine_boot, List.singleton_append]
  rw [Client_boot_ok ⟨image.length, some image.length, flashAt image image.length⟩
    hRest ((out ++ [Client2Host.Starting]) ++ clientSectorMsgs image.length 0)]
  rw [clientTrace]
  simp [List.append_assoc]

/-- A full host bootload run against the canonical replies. -/
theorem host_bootload_run (image : List Nat) (hmul : image.length % 256 = 0)
    (sfuel : Nat) (hfuel : image.length ≤ 4096 * sfuel) :
    bootload Host.machine sfuel ⟨⟨image, 0⟩, clientTrace image.length, []⟩ =
      some (Except.ok (), ⟨⟨image, image.length⟩, [], hostTrace image⟩) := by
  have h := host_inner_run image hmul sfuel hfuel [] []
  rw [List.append_nil] at h
  rw [List.nil_append] at h
  simp only [bootload, h]

/-- A full client bootload run against the canonical messages. -/
theorem client_bootload_run (image : List Nat) (hmul : image.length % 256 = 0)
    (hle : image.length ≤ 32768)
    (sfuel : Nat) (hfuel : image.length ≤ 4096 * sfuel) :
    bootload Client.machine sfuel ⟨client0, hostTrace image, []⟩ =
      some (Except.ok (),
        ⟨⟨image.length, some image.length, flashAt image image.length⟩, [],
          clientTrace image.length⟩) := by
  have h := client_inner_run image hmul hle sfuel hfuel [] []
  rw [List.append_nil] at h
  rw [List.nil_append] at h
  simp only [bootload, h]

theorem Host_start_err_nil (image : List Nat) (pos : Nat) (out : List Host2Client) :
    Host.start ⟨⟨image, pos⟩, [], out⟩ =
      some (Except.error (),
        ⟨⟨image, pos⟩, [], out ++ [Host2Client.Start image.length]⟩) := rfl

theorem Host_start_err_m (image : List Nat) (pos : Nat) (m : Client2Host)
    (rest : List Client2Host) (out : List Host2Client) (hm : m ≠ Client2Host.Starting) :
    Host.start ⟨⟨image, pos⟩, m :: rest, out⟩ =
      some (Except.error (),
        ⟨⟨image, pos⟩, rest, out ++ [Host2Client.Start image.length]⟩) := by
  cases m
  case Starting => exact absurd rfl hm
  all_goals rfl

theorem Host_erase_err_nil (image : List Nat) (pos start : Nat) (out : List Host2Client) :
    Host.erase_sector start 4096 ⟨⟨image, pos⟩, [], out⟩ =
      some (Except.error (),
        ⟨⟨image, pos⟩, [], out ++ [Host2Client.EraseSector start 4096]⟩) := rfl

theorem Host_erase_err_m (image : List Nat) (pos start : Nat) (m : Client2Host)
    (rest : List Client2Host) (out : List Host2Client) (hm : m ≠ Client2Host.SectorErased) :
    Host.erase_sector start 4096 ⟨⟨image, pos⟩, m :: rest, out⟩ =
      some (Except.error (),
        ⟨⟨image, pos⟩, rest, out ++ [Host2Client.EraseSector start 4096]⟩) := by
  cases m
  case SectorErased => exact absurd rfl hm
  all_goals rfl

theorem Host_wnc_err_nil (image : List Nat) (q : Nat) (out : List Host2Client)
    (h2 : q + 256 ≤ image.length) :
    Host.write_next_chunk ⟨⟨image, q⟩, [], out⟩ =
      some (Except.error (), ⟨⟨image, q + 256⟩, [],
        out ++ [Host2Client.WriteData q ((image.drop q).take 256)]⟩) := by
  simp only [Host.write_next_chunk]
  rw [if_neg (by omega), if_pos h2]

theorem Host_wnc_err_m (image : List Nat) (q : Nat) (m : Client2Host)
    (rest : List Client2Host) (out : List Host2Client)
    (h2 : q + 256 ≤ image.length) (hm : m ≠ Client2Host.ChunkWritten) :
    Host.write_next_chunk ⟨⟨image, q⟩, m :: rest, out⟩ =
      some (Except.error (), ⟨⟨image, q + 256⟩, rest,
        out ++ [Host2Client.WriteData q ((image.drop q).take 256)]⟩) := by
  simp only [Host.write_next_chunk]
  rw [if_neg (by omega), if_pos h2]

theorem Host_wnc_oob (image : List Nat) (q : Nat) (inbox : List Client2Host)
    (out : List Host2Client) (h1 : q < image.length) (h2 : image.length < q + 256) :
    Host.write_next_chunk ⟨⟨image, q⟩, inbox, out⟩ = none := by
  simp only [Host.write_next_chunk]
  rw [if_neg (by omega), if_neg (by omega)]

theorem Host_boot_err_nil (image : List Nat) (pos : Nat) (out : List Host2Client) :
    Host.boot ⟨⟨image, pos⟩, [], out⟩ =
      some (Except.error (), ⟨⟨image, pos⟩, [], out ++ [Host2Client.Boot]⟩) := rfl

theorem Host_boot_err_m (image : List Nat) (pos : Nat) (m : Client2Host)
    (rest : List Client2Host) (out : List Host2Client) (hm : m ≠ Client2Host.Booting) :
    Host.boot ⟨⟨image, pos⟩, m :: rest, out⟩ =
      some (Except.error (), ⟨⟨image, pos⟩, rest, out ++ [Host2Client.Boot]⟩) := by
  cases m
  case Booting => exact absurd rfl hm
  all_goals rfl

/-- Determinism of the host chunk loop: when it succeeds, the replies it
consumed were exactly ChunkWritten acknowledgements and it emitted exactly the
canonical WriteData messages. -/
theorem host_chunk_det (image : List Nat) (se : Nat) (n : Nat) :
    ∀ (q : Nat) (inbox : List Client2Host) (out : List Host2Client)
      (fin : PState Client2Host Host2Client Host),
      q + 256 * n = min se image.length →
      chunkLoopGo Host.machine se image.length q ⟨⟨image, q⟩, inbox, out⟩ =
        some (Except.ok (), fin) →
      inbox = List.replicate n Client2Host.ChunkWritten ++ fin.inbox ∧
        fin = ⟨⟨image, min se image.length⟩, fin.inbox, out ++ writeMsgs image q n⟩ := by
  induction n with
  | zero =>
    intro q inbox out fin h hrun
    rw [chunkLoopGo_stop Host.machine se image.length q (by omega)] at hrun
    simp only [Option.some.injEq, Prod.mk.injEq, true_and] at hrun
    subst hrun
    have hq : min se image.length = q := by omega
    rw [hq]
    simp [writeMsgs]
  | succ n ih =>
    intro q inbox out fin h hrun
    rw [chunkLoopGo_step Host.machine se image.length q (by constructor <;> omega)] at hrun
    rw [Host_machine_wnc] at hrun
    have hq256 : q + 256 ≤ image.length := by omega
    cases inbox with
    | nil =>
      rw [tmBind_err (Host_wnc_err_nil image q out hq256)] at hrun
      simp at hrun
    | cons m rest =>
      by_cases hm : m = Client2Host.ChunkWritten
      · subst hm
        simp only [tmBind_ok (Host_wnc_send_ok image q rest out hq256)] at hrun
        rw [dif_neg (by omega : ¬(256 = 0))] at hrun
        obtain ⟨h1, h2⟩ := ih (q + 256) rest
          (out ++ [Host2Client.WriteData q ((image.drop q).take 256)]) fin (by omega) hrun
        constructor
        · rw [h1, List.replicate_succ, List.cons_append]
        · rw [h2]
          simp [writeMsgs, List.append_assoc]
      · rw [tmBind_err (Host_wnc_err_m image q m rest out hq256 hm)] at hrun
        simp at hrun

/-- Determinism of the host sector loop: when it succeeds from an aligned
position, it consumed exactly the canonical replies and emitted exactly the
canonical messages, ending at the image end. -/
theorem host_sector_det (image : List Nat) (hmul : image.length % 256 = 0) :
    ∀ (sfuel : Nat) (p : Nat) (inbox : List Client2Host) (out : List Host2Client)
      (fin : PState Client2Host Host2Client Host),
      p ≤ image.length → (p % 4096 = 0 ∨ p = image.length) →
      sectorLoopGo Host.machine image.length sfuel ⟨⟨image, p⟩, inbox, out⟩ =
        some (Except.ok (), fin) →
      inbox = clientSectorMsgs image.length p ++ fin.inbox ∧
        fin = ⟨⟨image, image.length⟩, fin.inbox,
          out ++ hostSectorMsgs image image.length p⟩ := by
  intro sfuel
  induction sfuel with
  | zero =>
    intro p inbox out fin hple halign hrun
    by_cases hplt : p < image.length
    · simp only [sectorLoopGo, Host_machine_next, Host_next_some image p hplt] at hrun
      simp at hrun
    · rw [sectorLoopGo_done Host.machine image.length 0 _
        (by rw [Host_machine_next]; exact Host_next_none image p hplt)] at hrun
      simp only [Option.some.injEq, Prod.mk.injEq, true_and] at hrun
      subst hrun
      have hp : p = image.length := by omega
      subst hp
      rw [clientSectorMsgs_nil _ _ (by omega), hostSectorMsgs_nil _ _ _ (by omega)]
      simp
  | succ sfuel ih =>
    intro p inbox out fin hple halign hrun
    by_cases hplt : p < image.length
    · have hpal : p % 4096 = 0 := by omega
      have he256 : (min (p + 4096) image.length - p) % 256 = 0 := by omega
      have hn : p + 256 * ((min (p + 4096) image.length - p) / 256) =
          min (p + 4096) image.length := by omega
      simp only [sectorLoopGo, Host_machine_next, Host_next_some image p hplt,
        Host_machine_erase, Host_machine_sector] at hrun
      cases inbox with
      | nil =>
        rw [tmBind_err (Host_erase_err_nil image p p out)] at hrun
        simp at hrun
      | cons m rest =>
        by_cases hm : m = Client2Host.SectorErased
        · subst hm
          simp only [tmBind_ok (Host_erase_ok image p p rest out)] at hrun
          cases hc : chunkLoopGo Host.machine (p + 4096) image.length p
              ⟨⟨image, p⟩, rest, out ++ [Host2Client.EraseSector p 4096]⟩ with
          | none =>
            rw [tmBind_none hc] at hrun
            simp at hrun
          | some pr =>
            obtain ⟨exc, s2⟩ := pr
            cases exc with
            | error e =>
              rw [tmBind_err hc] at hrun
              simp at hrun
            | ok a =>
              rw [tmBind_ok hc] at hrun
              obtain ⟨hin2, hs2⟩ := host_chunk_det image (p + 4096)
                ((min (p + 4096) image.length - p) / 256) p rest
                (out ++ [Host2Client.EraseSector p 4096]) s2 hn hc
              rw [hs2] at hrun
              obtain ⟨hin3, hfin⟩ := ih (min (p + 4096) image.length) s2.inbox
                ((out ++ [Host2Client.EraseSector p 4096]) ++
                  writeMsgs image p ((min (p + 4096) image.length - p) / 256)) fin
                (by omega) (by omega) hrun
              constructor
              · rw [clientSectorMsgs, if_pos hplt, hin2, hin3]
                simp [List.append_assoc]
              · rw [hostSectorMsgs, if_pos hplt]
                rw [hfin]
                simp [List.append_assoc]
        · rw [tmBind_err (Host_erase_err_m image p p m rest out hm)] at hrun
          simp at hrun
    · rw [sectorLoopGo_done Host.machine image.length (sfuel + 1) _
        (by rw [Host_machine_next]; exact Host_next_none image p hplt)] at hrun
      simp only [Option.some.injEq, Prod.mk.injEq, true_and] at hrun
      subst hrun
      have hp : p = image.length := by omega
      subst hp
      rw [clientSectorMsgs_nil _ _ (by omega), hostSectorMsgs_nil _ _ _ (by omega)]
      simp

/-- A successful bootload is a successful bootload_inner: the abort path never
returns Ok. -/
theorem bootload_ok_inner (tm : TraitMachine In Out σ) (sfuel : Nat)
    (s : PState In Out σ) (fin : PState In Out σ)
    (h : bootload tm sfuel s = some (Except.ok (), fin)) :
    bootload_inner tm sfuel s = some (Except.ok (), fin) := by
  rw [bootload] at h
  rcases hb : bootload_inner tm sfuel s with _ | ⟨e | a, s'⟩
  · rw [hb] at h
    simp at h
  · rw [hb] at h
    rcases ha : tm.abort s' with _ | ⟨e2 | a2, s''⟩ <;> simp [ha] at h
  · rw [hb] at h
    simp at h
    cases a
    rw [h]

/-- Determinism of a successful host bootload run from position 0: its sent
messages are exactly the canonical trace and the replies it consumed are
exactly the canonical replies. -/
theorem host_bootload_det (image : List Nat) (hmul : image.length % 256 = 0)
    (sfuel : Nat) (cIn : List Client2Host)
    (fin : PState Client2Host Host2Client Host)
    (hrun : bootload Host.machine sfuel ⟨⟨image, 0⟩, cIn, []⟩ =
      some (Except.ok (), fin)) :
    fin.outbox = hostTrace image ∧ cIn = clientTrace image.length ++ fin.inbox ∧
      fin.st = ⟨image, image.length⟩ := by
  have hinner := bootload_ok_inner Host.machine sfuel _ fin hrun
  rw [bootload_inner, Host_machine_start] at hinner
  cases cIn with
  | nil =>
    rw [tmBind_err (Host_start_err_nil image 0 [])] at hinner
    simp at hinner
  | cons m rest =>
    by_cases hm : m = Client2Host.Starting
    · subst hm
      simp only [tmBind_ok (Host_start_ok image 0 rest [])] at hinner
      cases hs : sectorLoopGo Host.machine image.length sfuel
          ⟨⟨image, 0⟩, rest, [] ++ [Host2Client.Start image.length]⟩ with
      | none =>
        rw [tmBind_none hs] at hinner
        simp at hinner
      | some pr =>
        obtain ⟨exc, s2⟩ := pr
        cases exc with
        | error e =>
          rw [tmBind_err hs] at hinner
          simp at hinner
        | ok a =>
          rw [tmBind_ok hs] at hinner
          obtain ⟨hin2, hs2⟩ := host_sector_det image hmul sfuel 0 rest
            ([] ++ [Host2Client.Start image.length]) s2 (by omega) (Or.inl (by omega)) hs
          rw [hs2, Host_machine_boot] at hinner
          cases hin3 : s2.inbox with
          | nil =>
            rw [hin3] at hinner
            rw [Host_boot_err_nil image image.length] at hinner
            simp at hinner
          | cons mb restb =>
            rw [hin3] at hinner
            by_cases hmb : mb = Client2Host.Booting
            · subst hmb
              rw [Host_boot_ok image image.length restb] at hinner
              simp only [Option.some.injEq, Prod.mk.injEq, true_and] at hinner
              subst hinner
              refine ⟨?_, ?_, rfl⟩
              · rw [hostTrace]
                simp [List.append_assoc]
              · rw [hin2, hin3, clientTrace]
                simp [List.append_assoc]
            · rw [Host_boot_err_m image image.length mb restb _ hmb] at hinner
              simp at hinner
    · rw [tmBind_err (Host_start_err_m image 0 m rest [] hm)] at hinner
      simp at hinner

/-- Determinism of the client sector loop on the canonical input: whatever the
fuel, a successful run ends in the canonical state with the canonically
written flash. -/
theorem client_sector_det (image : List Nat) (hmul : image.length % 256 = 0)
    (hle : image.length ≤ 32768) :
    ∀ (sfuel : Nat) (p : Nat) (hRest : List Host2Client) (out : List Client2Host)
      (fin : PState Host2Client Client2Host Client),
      p ≤ image.length → (p % 4096 = 0 ∨ p = image.length) →
      sectorLoopGo Client.machine image.length sfuel
          ⟨⟨p, some image.length, flashAt image p⟩,
            hostSectorMsgs image image.length p ++ hRest, out⟩ =
        some (Except.ok (), fin) →
      fin = ⟨⟨image.length, some image.length, flashAt image image.length⟩,
        hRest, out ++ clientSectorMsgs image.length p⟩ := by
  intro sfuel
  induction sfuel with
  | zero =>
    intro p hRest out fin hple halign hrun
    by_cases hplt : p < image.length
    · simp only [sectorLoopGo, Client_machine_next,
        Client_next_some p image.length _ (by omega) hplt] at hrun
      simp at hrun
    · have hp : p = image.length := by omega
      subst hp
      rw [sectorLoopGo_done Client.machine image.length 0 _
        (by rw [Client_machine_next]; exact Client_next_none _ _ _ (by omega))] at hrun
      simp only [Option.some.injEq, Prod.mk.injEq, true_and] at hrun
      subst hrun
      rw [clientSectorMsgs_nil _ _ (by omega), hostSectorMsgs_nil _ _ _ (by omega)]
      simp
  | succ sfuel ih =>
    intro p hRest out fin hple halign hrun
    by_cases hplt : p < image.length
    · have hpal : p % 4096 = 0 := by omega
      have he256 : (min (p + 4096) image.length - p) % 256 = 0 := by omega
      have hn : p + 256 * ((min (p + 4096) image.length - p) / 256) =
          min (p + 4096) image.length := by omega
      rw [hostSectorMsgs, if_pos hplt] at hrun
      rw [List.cons_append, List.append_assoc] at hrun
      simp only [sectorLoopGo, Client_machine_next,
        Client_next_some p image.length _ (by omega) hplt,
        Client_machine_erase, Client_machine_sector] at hrun
      simp only [tmBind_ok (Client_erase_ok image p
        (writeMsgs image p ((min (p + 4096) image.length - p) / 256) ++
          (hostSectorMsgs image image.length (min (p + 4096) image.length) ++ hRest))
        out (some image.length) (by omega) (by omega))] at hrun
      simp only [tmBind_ok (client_chunk_run image (p + 4096) (by omega)
        ((min (p + 4096) image.length - p) / 256) p
        (hostSectorMsgs image image.length (min (p + 4096) image.length) ++ hRest)
        (out ++ [Client2Host.SectorErased]) (some image.length) hn)] at hrun
      have hfin := ih (min (p + 4096) image.length) hRest
        ((out ++ [Client2Host.SectorErased]) ++
          List.replicate ((min (p + 4096) image.length - p) / 256) Client2Host.ChunkWritten)
        fin (by omega) (by omega) hrun
      rw [clientSectorMsgs, if_pos hplt]
      rw [hfin]
      simp [List.append_assoc]
    · have hp : p = image.length := by omega
      subst hp
      rw [sectorLoopGo_done Client.machine image.length (sfuel + 1) _
        (by rw [Client_machine_next]; exact Client_next_none _ _ _ (by omega))] at hrun
      simp only [Option.some.injEq, Prod.mk.injEq, true_and] at hrun
      subst hrun
      rw [clientSectorMsgs_nil _ _ (by omega), hostSectorMsgs_nil _ _ _ (by omega)]
      simp

/-- Determinism of a successful client bootload run on the canonical input:
whatever the fuel, it ends in the canonical state. -/
theorem client_bootload_det (image : List Nat) (hmul : image.length % 256 = 0)
    (hle : image.length ≤ 32768) (sfuel : Nat)
    (fin : PState Host2Client Client2Host Client)
    (hrun : bootload Client.machine sfuel ⟨client0, hostTrace image, []⟩ =
      some (Except.ok (), fin)) :
    fin = ⟨⟨image.length, some image.length, flashAt image image.length⟩, [],
      clientTrace image.length⟩ := by
  have hinner := bootload_ok_inner Client.machine sfuel _ fin hrun
  rw [bootload_inner, Client_machine_start, hostTrace, client0] at hinner
  simp only [tmBind_ok (Client_start_ok ⟨0, none, List.replicate 32768 255⟩ image.length
    (hostSectorMsgs image image.length 0 ++ [Host2Client.Boot]) [] hle)] at hinner
  rw [← flashAt_zero image] at hinner
  simp only [List.nil_append] at hinner
  cases hs : sectorLoopGo Client.machine image.length sfuel
      ⟨⟨0, some image.length, flashAt image 0⟩,
        hostSectorMsgs image image.length 0 ++ [Host2Client.Boot],
        [Client2Host.Starting]⟩ with
  | none =>
    rw [tmBind_none hs] at hinner
    simp at hinner
  | some pr =>
    obtain ⟨exc, s2⟩ := pr
    cases exc with
    | error e =>
      rw [tmBind_err hs] at hinner
      simp at hinner
    | ok a =>
      rw [tmBind_ok hs] at hinner
      have hs2 := client_sector_det image hmul hle sfuel 0 [Host2Client.Boot]
        [Client2Host.Starting] s2 (by omega) (Or.inl (by omega)) hs
      rw [hs2, Client_machine_boot] at hinner
      rw [Client_boot_ok ⟨image.length, some image.length, flashAt image image.length⟩
        [] ([Client2Host.Starting] ++ clientSectorMsgs image.length 0)] at hinner
      simp only [Option.some.injEq, Prod.mk.injEq, true_and] at hinner
      rw [← hinner, clientTrace]
      simp [List.append_assoc]

theorem flashAt_full (image : List Nat) :
    flashAt image image.length = image ++ List.replicate (32768 - image.length) 255 := by
  rw [flashAt, List.take_length]

/-- C1: for every image whose length is a positive multiple of CHUNK_SIZE
(256) and at most the Client TOTAL_SIZE (32768), starting from a client whose
flash is entirely erased (0xFF), the joint exchange in which each side runs
bootload against the other side's sent messages has a successful run (first
conjunct), and every joint run in which both sides complete bootload
successfully leaves the client flash equal to the image on addresses
[0, image length) and still erased (0xFF) on every address at or beyond the
end of the last erased sector (second conjunct). -/
theorem c1_round_trip (image : List Nat)
    (hpos : 0 < image.length) (hmul : image.length % 256 = 0)
    (hle : image.length ≤ 32768) :
    (∃ sfuel hOut cOut hFin cFin,
      bootload Host.machine sfuel ⟨⟨image, 0⟩, cOut, []⟩ =
          some (Except.ok (), ⟨hFin, [], hOut⟩) ∧
        bootload Client.machine sfuel ⟨client0, hOut, []⟩ =
          some (Except.ok (), ⟨cFin, [], cOut⟩) ∧
        cFin.flash = image ++ List.replicate (32768 - image.length) 255) ∧
    (∀ sfuelH sfuelC hOut cOut hFin cFin hRest cRest,
      bootload Host.machine sfuelH ⟨⟨image, 0⟩, cOut, []⟩ =
          some (Except.ok (), ⟨hFin, hRest, hOut⟩) →
        bootload Client.machine sfuelC ⟨client0, hOut, []⟩ =
          some (Except.ok (), ⟨cFin, cRest, cOut⟩) →
        cFin.flash.take image.length = image ∧
          cFin.flash.drop (4096 * ((image.length + 4095) / 4096)) =
            List.replicate (32768 - 4096 * ((image.length + 4095) / 4096)) 255) := by
  constructor
  · refine ⟨image.length, hostTrace image, clientTrace image.length,
      ⟨image, image.length⟩,
      ⟨image.length, some image.length, flashAt image image.length⟩, ?_, ?_, ?_⟩
    · exact host_bootload_run image hmul image.length (by nlinarith)
    · exact client_bootload_run image hmul hle image.length (by nlinarith)
    · exact flashAt_full image
  · intro sfuelH sfuelC hOut cOut hFin cFin hRest cRest hH hC
    obtain ⟨h1, h2, h3⟩ := host_bootload_det image hmul sfuelH cOut
      ⟨hFin, hRest, hOut⟩ hH
    simp only [] at h1
    subst h1
    have h4 := client_bootload_det image hmul hle sfuelC ⟨cFin, cRest, cOut⟩ hC
    simp only [PState.mk.injEq] at h4
    have h5 : cFin.flash = flashAt image image.length := by rw [h4.1]
    constructor
    · rw [h5, flashAt_full image, List.take_left]
    · rw [h5, flashAt_drop image image.length _ le_rfl (by omega)]

theorem c1_round_trip_witness :
    ((0 < (List.replicate 256 66).length ∧ (List.replicate 256 66).length % 256 = 0 ∧
       (List.replicate 256 66).length ≤ 32768) ∧
     ((∃ sfuel hOut cOut hFin cFin,
       bootload Host.machine sfuel ⟨⟨List.replicate 256 66, 0⟩, cOut, []⟩ =
           some (Except.ok (), ⟨hFin, [], hOut⟩) ∧
         bootload Client.machine sfuel ⟨client0, hOut, []⟩ =
           some (Except.ok (), ⟨cFin, [], cOut⟩) ∧
         cFin.flash = List.replicate 256 66 ++
           List.replicate (32768 - (List.replicate 256 66).length) 255) ∧
     (∀ sfuelH sfuelC hOut cOut hFin cFin hRest cRest,
       bootload Host.machine sfuelH ⟨⟨List.replicate 256 66, 0⟩, cOut, []⟩ =
           some (Except.ok (), ⟨hFin, hRest, hOut⟩) →
         bootload Client.machine sfuelC ⟨client0, hOut, []⟩ =
           some (Except.ok (), ⟨cFin, cRest, cOut⟩) →
         cFin.flash.take (List.replicate 256 66).length = List.replicate 256 66 ∧
           cFin.flash.drop
               (4096 * (((List.replicate 256 66).length + 4095) / 4096)) =
             List.replicate
               (32768 - 4096 * (((List.replicate 256 66).length + 4095) / 4096)) 255))) :=
  ⟨⟨by decide, by decide, by decide⟩,
    c1_round_trip (List.replicate 256 66) (by decide) (by decide) (by decide)⟩

theorem Client_wnc_nil (st : Client) (out : List Client2Host) :
    Client.write_next_chunk ⟨st, [], out⟩ = some (Except.error (), ⟨st, [], out⟩) := rfl

theorem Client_wnc_addr_ne (pos : Nat) (il : Option Nat) (flash : List Nat)
    (addr : Nat) (data : List Nat) (rest : List Host2Client) (out : List Client2Host)
    (haddr : addr ≠ pos) :
    Client.write_next_chunk ⟨⟨pos, il, flash⟩,
        Host2Client.WriteData addr data :: rest, out⟩ =
      some (Except.error (), ⟨⟨pos, il, flash⟩, rest, out⟩) := by
  simp only [Client.write_next_chunk]
  rw [if_neg haddr]

theorem Client_wnc_len_ne (pos : Nat) (il : Option Nat) (flash : List Nat)
    (data : List Nat) (rest : List Host2Client) (out : List Client2Host)
    (hlen : ¬ data.length = 256) :
    Client.write_next_chunk ⟨⟨pos, il, flash⟩,
        Host2Client.WriteData pos data :: rest, out⟩ =
      some (Except.error (), ⟨⟨pos, il, flash⟩, rest, out⟩) := by
  simp only [Client.write_next_chunk]
  rw [if_pos trivial, if_neg hlen]

theorem Client_wnc_range_err (pos : Nat) (il : Option Nat) (flash : List Nat)
    (data : List Nat) (rest : List Host2Client) (out : List Client2Host)
    (hlen : data.length = 256) (hrange : ¬ pos + 256 ≤ flash.length) :
    Client.write_next_chunk ⟨⟨pos, il, flash⟩,
        Host2Client.WriteData pos data :: rest, out⟩ =
      some (Except.error (), ⟨⟨pos, il, flash⟩, rest, out⟩) := by
  simp only [Client.write_next_chunk]
  rw [if_pos trivial, if_pos hlen, Client.chunk_write, hlen,
    if_neg (by omega)]

theorem Client_wnc_assert (pos : Nat) (il : Option Nat) (flash : List Nat)
    (data : List Nat) (rest : List Host2Client) (out : List Client2Host)
    (hlen : data.length = 256) (hrange : pos + 256 ≤ flash.length)
    (herased : ¬ (flash.drop pos).take 256 = List.replicate 256 255) :
    Client.write_next_chunk ⟨⟨pos, il, flash⟩,
        Host2Client.WriteData pos data :: rest, out⟩ = none := by
  simp only [Client.write_next_chunk]
  rw [if_pos trivial, if_pos hlen, Client.chunk_write, hlen,
    if_pos (by omega), if_neg herased]

theorem Client_wnc_write (pos : Nat) (il : Option Nat) (flash : List Nat)
    (data : List Nat) (rest : List Host2Client) (out : List Client2Host)
    (hlen : data.length = 256) (hrange : pos + 256 ≤ flash.length)
    (herased : (flash.drop pos).take 256 = List.replicate 256 255) :
    Client.write_next_chunk ⟨⟨pos, il, flash⟩,
        Host2Client.WriteData pos data :: rest, out⟩ =
      some (Except.ok 256,
        ⟨⟨pos + 256, il, flash.take pos ++ data ++ flash.drop (pos + 256)⟩, rest,
          out ++ [Client2Host.ChunkWritten]⟩) := by
  simp only [Client.write_next_chunk]
  rw [if_pos trivial, if_pos hlen, Client.chunk_write, hlen,
    if_pos (by omega), if_pos herased]

theorem Client_start_isSome (s : PState Host2Client Client2Host Client) :
    (Client.start s).isSome = true := by
  rcases s with ⟨st, _ | ⟨m, rest⟩, out⟩
  · rfl
  · cases m
    case Start ts =>
      by_cases h : ts ≤ Client.TOTAL_SIZE <;> simp [Client.start, h]
    all_goals rfl

theorem Client_erase_isSome (a b : Nat) (s : PState Host2Client Client2Host Client) :
    (Client.erase_sector a b s).isSome = true := by
  rcases s with ⟨st, _ | ⟨m, rest⟩, out⟩
  · rfl
  · cases m
    case EraseSector addr len =>
      by_cases h : addr = a ∧ len = b
      · simp only [Client.erase_sector, if_pos h]
        rcases hres : Client.sector_erase st.flash a b with e | f <;> simp
      · simp [Client.erase_sector, h]
    all_goals rfl

theorem Client_boot_isSome (s : PState Host2Client Client2Host Client) :
    (Client.boot s).isSome = true := by
  rcases s with ⟨st, _ | ⟨m, rest⟩, out⟩
  · rfl
  · cases m <;> rfl

theorem Client_next_eq (c : Client) (v : Nat) (h : Client.next_sector c = some v) :
    v = c.position := by
  rcases hil : c.image_len with _ | len
  · simp only [Client.next_sector, hil] at h
    exact absurd h (by simp)
  · simp only [Client.next_sector, hil] at h
    by_cases hc : c.position < Client.TOTAL_SIZE ∧ c.position < len
    · rw [if_pos hc] at h
      exact (Option.some.inj h).symm
    · rw [if_neg hc] at h
      exact absurd h (by simp)

/-- When Client::erase_sector succeeds it leaves the cursor unchanged and the
flash erased on exactly the requested in-range span. -/
theorem Client_erase_ok_shape (a b : Nat) (s : PState Host2Client Client2Host Client)
    (u : Unit) (s1 : PState Host2Client Client2Host Client)
    (h : Client.erase_sector a b s = some (Except.ok u, s1)) :
    s1.st.position = s.st.position ∧
      s1.st.flash = s.st.flash.take a ++ List.replicate b 255 ++
        s.st.flash.drop (a + b) ∧
      a + b ≤ s.st.flash.length := by
  rcases s with ⟨st, _ | ⟨m, rest⟩, out⟩
  · exact absurd h (by simp [Client.erase_sector])
  · cases m
    case EraseSector addr len =>
      simp only [Client.erase_sector] at h
      by_cases hok : addr = a ∧ len = b
      · rw [if_pos hok] at h
        by_cases hr : a + b ≤ st.flash.length
        · rw [Client.sector_erase, if_pos hr] at h
          simp only [Option.some.injEq, Prod.mk.injEq] at h
          rw [← h.2]
          exact ⟨rfl, rfl, hr⟩
        · rw [Client.sector_erase, if_neg hr] at h
          simp at h
      · rw [if_neg hok] at h
        simp at h
    case Start ts => exact absurd h (by simp [Client.erase_sector])
    case WriteData a' d' => exact absurd h (by simp [Client.erase_sector])
    case Boot => exact absurd h (by simp [Client.erase_sector])
    case Abort => exact absurd h (by simp [Client.erase_sector])

theorem Client_wnc_not_wd (st : Client) (m : Host2Client)
    (rest : List Host2Client) (out : List Client2Host)
    (hm : ∀ a d, m ≠ Host2Client.WriteData a d) :
    Client.write_next_chunk ⟨st, m :: rest, out⟩ =
      some (Except.error (), ⟨st, rest, out⟩) := by
  cases m
  case WriteData a d => exact absurd rfl (hm a d)
  all_goals rfl

theorem take_of_replicate_append (n m : Nat) (l : List Nat) (h : n ≤ m) :
    (List.replicate m (255 : Nat) ++ l).take n = List.replicate n 255 := by
  rw [List.take_append_eq_append_take, List.take_replicate, List.length_replicate,
    min_eq_left h]
  have h2 : n - m = 0 := by omega
  rw [h2, List.take_zero, List.append_nil]

theorem write_preserve (pre data suf : List Nat) (k : Nat) :
    (pre ++ (List.replicate (256 * (k + 1)) 255 ++ suf)).take pre.length ++ data ++
      (pre ++ (List.replicate (256 * (k + 1)) 255 ++ suf)).drop (pre.length + 256) =
    (pre ++ data) ++ (List.replicate (256 * k) 255 ++ suf) := by
  rw [List.take_left, List.drop_append_eq_append_drop,
    List.drop_eq_nil_of_le (by omega), List.nil_append]
  have h1 : pre.length + 256 - pre.length = 256 := by omega
  rw [h1, List.drop_append_eq_append_drop, List.drop_replicate, List.length_replicate]
  have h2 : 256 - 256 * (k + 1) = 0 := by omega
  have h3 : 256 * (k + 1) - 256 = 256 * k := by omega
  rw [h2, h3, List.drop_zero]

/-- The client chunk loop never panics: every write it accepts lands on bytes
erased by the preceding sector erase, so the non-erased-write assertion never
fires, whatever messages arrive. -/
theorem client_chunk_noPanic (image_end se : Nat) :
    ∀ (k pos : Nat) (il : Option Nat) (flash : List Nat)
      (inbox : List Host2Client) (out : List Client2Host),
      pos + 256 * k = se →
      (∃ pre suf, flash = pre ++ (List.replicate (256 * k) 255 ++ suf) ∧
        pre.length = pos) →
      (chunkLoopGo Client.machine se image_end pos
        ⟨⟨pos, il, flash⟩, inbox, out⟩).isSome = true := by
  intro k
  induction k with
  | zero =>
    intro pos il flash inbox out hk hinv
    rw [chunkLoopGo_stop Client.machine se image_end pos (by omega)]
    rfl
  | succ k ih =>
    intro pos il flash inbox out hk hinv
    obtain ⟨pre, suf, hflash, hpre⟩ := hinv
    by_cases hcond : pos < se ∧ pos < image_end
    case neg =>
      rw [chunkLoopGo_stop Client.machine se image_end pos hcond]
      rfl
    case pos =>
      rw [chunkLoopGo_step Client.machine se image_end pos hcond, Client_machine_wnc]
      cases inbox with
      | nil =>
        rw [tmBind_err (Client_wnc_nil _ out)]
        rfl
      | cons m rest =>
        by_cases hwd : ∀ a d, m ≠ Host2Client.WriteData a d
        case pos =>
          rw [tmBind_err (Client_wnc_not_wd _ m rest out hwd)]
          rfl
        case neg =>
          push_neg at hwd
          obtain ⟨addr, data, hm⟩ := hwd
          subst hm
          by_cases haddr : addr = pos
          case neg =>
            rw [tmBind_err (Client_wnc_addr_ne pos il flash addr data rest out haddr)]
            rfl
          case pos =>
            subst haddr
            by_cases hlen : data.length = 256
            case neg =>
              rw [tmBind_err (Client_wnc_len_ne _ il flash data rest out hlen)]
              rfl
            case pos =>
              have hflen : addr + 256 ≤ flash.length := by
                rw [hflash]
                simp only [List.length_append, List.length_replicate]
                omega
              have herased : (flash.drop addr).take 256 = List.replicate 256 255 := by
                rw [hflash, ← hpre, List.drop_left]
                exact take_of_replicate_append 256 (256 * (k + 1)) suf (by omega)
              simp only [tmBind_ok
                (Client_wnc_write addr il flash data rest out hlen hflen herased)]
              rw [dif_neg (by omega : ¬(256 = 0))]
              apply ih (addr + 256) il _ rest (out ++ [Client2Host.ChunkWritten]) (by omega)
              refine ⟨pre ++ data, suf, ?_, by simp [hlen, hpre]⟩
              rw [hflash, ← hpre]
              exact write_preserve pre data suf k

/-- The client sector loop never panics, from any state and any inbox. -/
theorem client_sector_noPanic (image_end : Nat) :
    ∀ (sfuel : Nat) (s : PState Host2Client Client2Host Client),
      (sectorLoopGo Client.machine image_end sfuel s).isSome = true := by
  intro sfuel
  induction sfuel with
  | zero =>
    intro s
    simp only [sectorLoopGo]
    cases Client.machine.next_sector s.st <;> rfl
  | succ sfuel ih =>
    intro s
    rcases hns : Client.next_sector s.st with _ | v
    · simp only [sectorLoopGo, Client_machine_next, hns]
      rfl
    · have hstart := Client_next_eq s.st v hns
      subst hstart
      simp only [sectorLoopGo, Client_machine_next, hns, Client_machine_erase,
        Client_machine_sector]
      have hesome := Client_erase_isSome s.st.position 4096 s
      cases hres : Client.erase_sector s.st.position 4096 s with
      | none =>
        rw [hres] at hesome
        simp at hesome
      | some pr =>
        obtain ⟨exc, s1⟩ := pr
        cases exc with
        | error e =>
          rw [tmBind_err hres]
          rfl
        | ok u =>
          simp only [tmBind_ok hres]
          obtain ⟨hpos2, hflash2, hrange2⟩ := Client_erase_ok_shape _ _ _ _ _ hres
          rcases s1 with ⟨⟨p1, il1, f1⟩, in1, out1⟩
          simp only [] at hpos2 hflash2
          subst hpos2
          have hinv : ∃ pre suf,
              f1 = pre ++ (List.replicate (256 * 16) 255 ++ suf) ∧
                pre.length = s.st.position := by
            refine ⟨s.st.flash.take s.st.position,
              s.st.flash.drop (s.st.position + 4096), ?_, ?_⟩
            · rw [hflash2]
              norm_num [List.append_assoc]
            · rw [List.length_take]
              omega
          have hchunk := client_chunk_noPanic image_end (s.st.position + 4096) 16
            s.st.position il1 f1 in1 out1 (by omega) hinv
          cases hcres : chunkLoopGo Client.machine (s.st.position + 4096) image_end
              s.st.position ⟨⟨s.st.position, il1, f1⟩, in1, out1⟩ with
          | none =>
            rw [hcres] at hchunk
            simp at hchunk
          | some pr2 =>
            obtain ⟨exc2, s2⟩ := pr2
            cases exc2 with
            | error e2 =>
              rw [tmBind_err hcres]
              rfl
            | ok u2 =>
              rw [tmBind_ok hcres]
              exact ih s2

/-- C2: the WRITING NON ERASED FLASH assertion of Client::chunk_write is
modeled by the none outcome, and a client bootload run never produces it:
from every client state and whatever messages arrive, every WriteData the
client accepts inside its sector loop targets only addresses of the sector
erased by the immediately preceding accepted EraseSector, so every byte it
writes is erased (0xFF) at the moment it is written.  In particular the
assertion never fires during a successful run. -/
theorem c2_erase_before_write (sfuel : Nat)
    (s : PState Host2Client Client2Host Client) :
    (bootload Client.machine sfuel s).isSome = true := by
  have hb : (bootload_inner Client.machine sfuel s).isSome = true := by
    rw [bootload_inner, Client_machine_start]
    have h1 := Client_start_isSome s
    cases hs1 : Client.start s with
    | none =>
      rw [hs1] at h1
      simp at h1
    | some pr =>
      obtain ⟨exc, s1⟩ := pr
      cases exc with
      | error e =>
        rw [tmBind_err hs1]
        rfl
      | ok a =>
        simp only [tmBind_ok hs1]
        have h2 := client_sector_noPanic a sfuel s1
        cases hs2 : sectorLoopGo Client.machine a sfuel s1 with
        | none =>
          rw [hs2] at h2
          simp at h2
        | some pr2 =>
          obtain ⟨exc2, s2⟩ := pr2
          cases exc2 with
          | error e2 =>
            rw [tmBind_err hs2]
            rfl
          | ok a2 =>
            rw [tmBind_ok hs2, Client_machine_boot]
            exact Client_boot_isSome s2
  rw [bootload]
  cases hbv : bootload_inner Client.machine sfuel s with
  | none =>
    rw [hbv] at hb
    simp at hb
  | some pr =>
    obtain ⟨exc, s'⟩ := pr
    cases exc with
    | error e => rfl
    | ok a => rfl

/-- C3 counterexample: in the state the demonstration main actually creates
(flash initialized to 0x00, not erased; image_len recorded as 15360 by Start;
cursor at 0), the message WriteData{addr = 0, data of length 256} matches the
cursor and the chunk length, yet write_next_chunk does not write-and-reply
ChunkWritten: it hits the WRITING NON ERASED FLASH assertion (modeled none),
refuting the claim that acceptance always writes, advances and replies. -/
theorem c3_counterexample :
    (0 : Nat) = (0 : Nat) ∧ (List.replicate 256 (66 : Nat)).length = 256 ∧
    Client.write_next_chunk ⟨⟨0, some 15360, List.replicate 32768 0⟩,
        [Host2Client.WriteData 0 (List.replicate 256 66)], []⟩ = none := by
  refine ⟨rfl, by decide, ?_⟩
  apply Client_wnc_assert 0 (some 15360) (List.replicate 32768 0)
    (List.replicate 256 66) [] []
  · decide
  · rw [List.length_replicate]
    omega
  · rw [List.drop_zero, List.take_replicate]
    intro h
    have h2 := List.eq_replicate_iff.mp h
    have h3 : (0 : Nat) = 255 := by
      apply h2.2
      apply List.mem_replicate.mpr
      constructor
      · simp [min_eq_left]
      · rfl
    omega

/-- C3 as amended: Client::write_next_chunk validates a received message
exactly when it is WriteData{addr, data} with addr equal to the cursor and
data of length CHUNK_SIZE; a validated message whose range lies inside the
flash and is wholly erased is written, the cursor advances by CHUNK_SIZE and
ChunkWritten is the reply; a validated message whose range falls outside the
flash is an error leaving flash and cursor unchanged; a validated message
targeting a non-erased byte is the fatal assertion; any other message or
mismatch is an error leaving flash and cursor unchanged.  Stated as equality
with write_next_chunkSpec, the function written from those words. -/
theorem c3_write_next_chunk_amended (s : PState Host2Client Client2Host Client) :
    Client.write_next_chunk s = write_next_chunkSpec s := by
  rcases s with ⟨⟨pos, il, flash⟩, _ | ⟨m, rest⟩, out⟩
  · rfl
  · by_cases hwd : ∀ a d, m ≠ Host2Client.WriteData a d
    · rw [Client_wnc_not_wd _ m rest out hwd]
      cases m <;> first | rfl | exact absurd rfl (hwd _ _)
    · push_neg at hwd
      obtain ⟨addr, data, hm⟩ := hwd
      subst hm
      by_cases haddr : addr = pos
      · subst haddr
        by_cases hlen : data.length = 256
        · by_cases hrange : addr + 256 ≤ flash.length
          · by_cases herased : (flash.drop addr).take 256 = List.replicate 256 255
            · rw [Client_wnc_write addr il flash data rest out hlen hrange herased]
              simp [write_next_chunkSpec, hlen, hrange, herased]
            · rw [Client_wnc_assert addr il flash data rest out hlen hrange herased]
              simp only [write_next_chunkSpec]
              rw [if_pos ⟨trivial, hlen⟩, if_pos hrange, if_neg herased]
          · rw [Client_wnc_range_err addr il flash data rest out hlen hrange]
            simp [write_next_chunkSpec, hlen, hrange]
        · rw [Client_wnc_len_ne addr il flash data rest out hlen]
          simp [write_next_chunkSpec, hlen]
      · rw [Client_wnc_addr_ne pos il flash addr data rest out haddr]
        simp [write_next_chunkSpec, haddr]

/-- C5: an accepted WriteData is always at the cursor and advances the cursor
by exactly CHUNK_SIZE = 256 (so the accepted chunk addresses strictly increase
by exactly 256 each step), and a WriteData strictly below the cursor is always
rejected with an error, changing neither flash nor cursor, in every client
state. -/
theorem c5_monotonic_addressing :
    (∀ (pos : Nat) (il : Option Nat) (flash : List Nat) (addr : Nat)
       (data : List Nat) (rest : List Host2Client) (out : List Client2Host)
       (k : Nat) (fin : PState Host2Client Client2Host Client),
      Client.write_next_chunk ⟨⟨pos, il, flash⟩,
          Host2Client.WriteData addr data :: rest, out⟩ = some (Except.ok k, fin) →
      addr = pos ∧ fin.st.position = pos + 256) ∧
    (∀ (pos : Nat) (il : Option Nat) (flash : List Nat) (addr : Nat)
       (data : List Nat) (rest : List Host2Client) (out : List Client2Host),
      addr < pos →
      Client.write_next_chunk ⟨⟨pos, il, flash⟩,
          Host2Client.WriteData addr data :: rest, out⟩ =
        some (Except.error (), ⟨⟨pos, il, flash⟩, rest, out⟩)) := by
  constructor
  · intro pos il flash addr data rest out k fin h
    by_cases haddr : addr = pos
    · subst haddr
      by_cases hlen : data.length = 256
      · by_cases hrange : addr + 256 ≤ flash.length
        · by_cases herased : (flash.drop addr).take 256 = List.replicate 256 255
          · rw [Client_wnc_write addr il flash data rest out hlen hrange herased] at h
            simp only [Option.some.injEq, Prod.mk.injEq] at h
            rw [← h.2]
            exact ⟨rfl, rfl⟩
          · rw [Client_wnc_assert addr il flash data rest out hlen hrange herased] at h
            simp at h
        · rw [Client_wnc_range_err addr il flash data rest out hlen hrange] at h
          simp at h
      · rw [Client_wnc_len_ne addr il flash data rest out hlen] at h
        simp at h
    · rw [Client_wnc_addr_ne pos il flash addr data rest out haddr] at h
      simp at h
  · intro pos il flash addr data rest out haddr
    exact Client_wnc_addr_ne pos il flash addr data rest out (by omega)

theorem c5_monotonic_addressing_witness :
    ((0 : Nat) = 0 ∧
      (⟨⟨256, none, List.replicate 256 7⟩, [], [Client2Host.ChunkWritten]⟩ :
        PState Host2Client Client2Host Client).st.position = 0 + 256) ∧
    Client.write_next_chunk ⟨⟨1, none, []⟩,
        [Host2Client.WriteData 0 []], []⟩ =
      some (Except.error (), ⟨⟨1, none, []⟩, [], []⟩) :=
  ⟨c5_monotonic_addressing.1 0 none (List.replicate 256 255) 0 (List.replicate 256 7)
      [] [] 256 ⟨⟨256, none, List.replicate 256 7⟩, [], [Client2Host.ChunkWritten]⟩
      (by rfl),
    c5_monotonic_addressing.2 1 none [] 0 [] [] [] (by decide)⟩

theorem Client_start_reject (st : Client) (ts : Nat) (rest : List Host2Client)
    (out : List Client2Host) (h : 32768 < ts) :
    Client.start ⟨st, Host2Client.Start ts :: rest, out⟩ =
      some (Except.error (), ⟨st, rest, out⟩) := by
  simp only [Client.start]
  rw [if_neg (show ¬ ts ≤ Client.TOTAL_SIZE by rw [Client.TOTAL_SIZE]; omega)]

/-- C4: Client::start accepts exactly the message Start{total_size} with
total_size at most TOTAL_SIZE = 32768, recording image_len and replying
Starting; an oversize Start or any other message is an error leaving the
state unchanged; and a bootload run fed Start{40000} fails, sending exactly
one ErrorReset notification. -/
theorem c4_start_gate :
    (∀ (st : Client) (ts : Nat) (rest : List Host2Client) (out : List Client2Host),
      (ts ≤ 32768 →
        Client.start ⟨st, Host2Client.Start ts :: rest, out⟩ =
          some (Except.ok ts, ⟨⟨st.position, some ts, st.flash⟩, rest,
            out ++ [Client2Host.Starting]⟩)) ∧
      (32768 < ts →
        Client.start ⟨st, Host2Client.Start ts :: rest, out⟩ =
          some (Except.error (), ⟨st, rest, out⟩))) ∧
    (∀ (st : Client) (m : Host2Client) (rest : List Host2Client)
       (out : List Client2Host), (∀ ts, m ≠ Host2Client.Start ts) →
      Client.start ⟨st, m :: rest, out⟩ = some (Except.error (), ⟨st, rest, out⟩)) ∧
    (∀ (sfuel : Nat) (st0 : Client) (restI : List Host2Client)
       (out0 : List Client2Host),
      bootload Client.machine sfuel ⟨st0, Host2Client.Start 40000 :: restI, out0⟩ =
        some (Except.error (), ⟨st0, restI, out0 ++ [Client2Host.ErrorReset]⟩)) := by
  refine ⟨?_, ?_, ?_⟩
  · intro st ts rest out
    exact ⟨fun h => Client_start_ok st ts rest out h,
      fun h => Client_start_reject st ts rest out h⟩
  · intro st m rest out hm
    cases m <;> first | rfl | exact absurd rfl (hm _)
  · intro sfuel st0 restI out0
    have hin : bootload_inner Client.machine sfuel
        ⟨st0, Host2Client.Start 40000 :: restI, out0⟩ =
        some (Except.error (), ⟨st0, restI, out0⟩) := by
      rw [bootload_inner, Client_machine_start]
      exact tmBind_err (Client_start_reject st0 40000 restI out0 (by omega))
    simp only [bootload, hin, Client_machine_abort]
    rfl

theorem c4_start_gate_witness :
    (100 ≤ 32768 ∧
      Client.start ⟨⟨0, none, []⟩, [Host2Client.Start 100], []⟩ =
        some (Except.ok 100, ⟨⟨0, some 100, []⟩, [], [Client2Host.Starting]⟩)) ∧
    (32768 < 40000 ∧
      Client.start ⟨⟨0, none, []⟩, [Host2Client.Start 40000], []⟩ =
        some (Except.error (), ⟨⟨0, none, []⟩, [], []⟩)) ∧
    Client.start ⟨⟨0, none, []⟩, [Host2Client.Boot], []⟩ =
      some (Except.error (), ⟨⟨0, none, []⟩, [], []⟩) :=
  ⟨⟨by decide, (c4_start_gate.1 ⟨0, none, []⟩ 100 [] []).1 (by decide)⟩,
   ⟨by decide, (c4_start_gate.1 ⟨0, none, []⟩ 40000 [] []).2 (by decide)⟩,
   c4_start_gate.2.1 ⟨0, none, []⟩ Host2Client.Boot [] []
     (fun ts h => Host2Client.noConfusion h)⟩

/-- C6: whenever bootload_inner returns an error, bootload sends exactly one
one-way notification (Abort from the Host, ErrorReset from the Client) -
appended to the outbox with the inbox untouched, so nothing is awaited - and
returns failure, never success. -/
theorem c6_abort_on_error :
    (∀ (sfuel : Nat) (s s' : PState Client2Host Host2Client Host),
      bootload_inner Host.machine sfuel s = some (Except.error (), s') →
      bootload Host.machine sfuel s =
        some (Except.error (),
          ⟨s'.st, s'.inbox, s'.outbox ++ [Host2Client.Abort]⟩)) ∧
    (∀ (sfuel : Nat) (s s' : PState Host2Client Client2Host Client),
      bootload_inner Client.machine sfuel s = some (Except.error (), s') →
      bootload Client.machine sfuel s =
        some (Except.error (),
          ⟨s'.st, s'.inbox, s'.outbox ++ [Client2Host.ErrorReset]⟩)) := by
  constructor
  · intro sfuel s s' h
    simp only [bootload, h, Host_machine_abort]
    rfl
  · intro sfuel s s' h
    simp only [bootload, h, Client_machine_abort]
    rfl

theorem c6_abort_on_error_witness :
    bootload Host.machine 0 ⟨⟨[], 0⟩, [], []⟩ =
      some (Except.error (),
        ⟨⟨[], 0⟩, [], [Host2Client.Start 0] ++ [Host2Client.Abort]⟩) ∧
    bootload Client.machine 0 ⟨⟨0, none, []⟩, [], []⟩ =
      some (Except.error (), ⟨⟨0, none, []⟩, [], [] ++ [Client2Host.ErrorReset]⟩) :=
  ⟨c6_abort_on_error.1 0 ⟨⟨[], 0⟩, [], []⟩ ⟨⟨[], 0⟩, [], [Host2Client.Start 0]⟩ rfl,
   c6_abort_on_error.2 0 ⟨⟨0, none, []⟩, [], []⟩ ⟨⟨0, none, []⟩, [], []⟩ rfl⟩

/-- C9: with the cursor at or past the image end, Host::write_next_chunk
advances the cursor by one CHUNK_SIZE without sending anything; and whenever
it is called with the cursor inside the image and returns at all, it has sent
exactly one WriteData carrying exactly the 256 image bytes starting at the
cursor, and advanced the cursor by 256. -/
theorem c9_host_chunk_send :
    (∀ (image : List Nat) (pos : Nat) (inbox : List Client2Host)
       (out : List Host2Client),
      image.length ≤ pos →
      Host.write_next_chunk ⟨⟨image, pos⟩, inbox, out⟩ =
        some (Except.ok 256, ⟨⟨image, pos + 256⟩, inbox, out⟩)) ∧
    (∀ (image : List Nat) (pos : Nat) (inbox : List Client2Host)
       (out : List Host2Client)
       (res : Except Unit Nat × PState Client2Host Host2Client Host),
      pos < image.length →
      Host.write_next_chunk ⟨⟨image, pos⟩, inbox, out⟩ = some res →
      res.2.outbox = out ++ [Host2Client.WriteData pos ((image.drop pos).take 256)] ∧
        ((image.drop pos).take 256).length = 256 ∧
        res.2.st.position = pos + 256) := by
  constructor
  · intro image pos inbox out h
    simp only [Host.write_next_chunk]
    rw [if_pos h]
  · intro image pos inbox out res hlt hres
    by_cases hr : pos + 256 ≤ image.length
    · have hdata : ((image.drop pos).take 256).length = 256 := by
        simp only [List.length_take, List.length_drop]
        omega
      cases inbox with
      | nil =>
        rw [Host_wnc_err_nil image pos out hr] at hres
        rw [← Option.some.inj hres]
        exact ⟨rfl, hdata, rfl⟩
      | cons m rest =>
        by_cases hm : m = Client2Host.ChunkWritten
        · subst hm
          rw [Host_wnc_send_ok image pos rest out hr] at hres
          rw [← Option.some.inj hres]
          exact ⟨rfl, hdata, rfl⟩
        · rw [Host_wnc_err_m image pos m rest out hr hm] at hres
          rw [← Option.some.inj hres]
          exact ⟨rfl, hdata, rfl⟩
    · rw [Host_wnc_oob image pos inbox out hlt (by omega)] at hres
      exact absurd hres (by simp)

theorem c9_host_chunk_send_witness :
    Host.write_next_chunk ⟨⟨[], 0⟩, [], []⟩ =
        some (Except.ok 256, ⟨⟨[], 0 + 256⟩, [], []⟩) ∧
    ((⟨Except.error (), ⟨⟨List.replicate 300 5, 256⟩, [],
        [Host2Client.WriteData 0 ((List.replicate 300 (5 : Nat)).take 256)]⟩⟩ :
      Except Unit Nat × PState Client2Host Host2Client Host).2.outbox =
        [] ++ [Host2Client.WriteData 0
          (((List.replicate 300 (5 : Nat)).drop 0).take 256)] ∧
      (((List.replicate 300 (5 : Nat)).drop 0).take 256).length = 256 ∧
      (⟨Except.error (), ⟨⟨List.replicate 300 5, 256⟩, [],
        [Host2Client.WriteData 0 ((List.replicate 300 (5 : Nat)).take 256)]⟩⟩ :
      Except Unit Nat × PState Client2Host Host2Client Host).2.st.position = 0 + 256) :=
  ⟨c9_host_chunk_send.1 [] 0 [] [] (by decide),
   c9_host_chunk_send.2 (List.replicate 300 5) 0 [] []
     ⟨Except.error (), ⟨⟨List.replicate 300 5, 256⟩, [],
       [Host2Client.WriteData 0 ((List.replicate 300 (5 : Nat)).take 256)]⟩⟩
     (by decide) (by rfl)⟩

/-- C10: when fewer than CHUNK_SIZE bytes remain between the cursor and the
image end, the slice image[position..][..256] in Host::write_next_chunk is out
of range: the call panics (modeled none) instead of erroring or padding
(first conjunct), so the host run on a 100-byte image (length not a multiple
of 256) dies in the first chunk of the first sector even when the client
replies correctly (second conjunct). -/
theorem c10_host_tail_panic :
    (∀ (image : List Nat) (pos : Nat) (inbox : List Client2Host)
       (out : List Host2Client),
      pos < image.length → image.length < pos + 256 →
      Host.write_next_chunk ⟨⟨image, pos⟩, inbox, out⟩ = none) ∧
    bootload Host.machine 1 ⟨⟨List.replicate 100 1, 0⟩,
      [Client2Host.Starting, Client2Host.SectorErased], []⟩ = none := by
  constructor
  · exact fun image pos inbox out h1 h2 => Host_wnc_oob image pos inbox out h1 h2
  · have hlen : (List.replicate 100 (1 : Nat)).length = 100 := by decide
    have hchunk : chunkLoopGo Host.machine (0 + 4096) (List.replicate 100 (1 : Nat)).length 0
        ⟨⟨List.replicate 100 1, 0⟩, [],
          [] ++ [Host2Client.Start (List.replicate 100 (1 : Nat)).length] ++
            [Host2Client.EraseSector 0 4096]⟩ = none := by
      rw [chunkLoopGo_step Host.machine _ _ 0 (by rw [hlen]; omega)]
      rw [Host_machine_wnc]
      exact tmBind_none (Host_wnc_oob _ 0 _ _ (by rw [hlen]; omega) (by rw [hlen]; omega))
    have hsec : sectorLoopGo Host.machine (List.replicate 100 (1 : Nat)).length 1
        ⟨⟨List.replicate 100 1, 0⟩, [Client2Host.SectorErased],
          [] ++ [Host2Client.Start (List.replicate 100 (1 : Nat)).length]⟩ = none := by
      simp only [sectorLoopGo, Host_machine_next,
        Host_next_some (List.replicate 100 1) 0 (by rw [hlen]; omega),
        Host_machine_erase, Host_machine_sector]
      simp only [tmBind_ok (Host_erase_ok (List.replicate 100 1) 0 0 []
        ([] ++ [Host2Client.Start (List.replicate 100 (1 : Nat)).length]))]
      exact tmBind_none hchunk
    have hin : bootload_inner Host.machine 1
        ⟨⟨List.replicate 100 1, 0⟩,
          [Client2Host.Starting, Client2Host.SectorErased], []⟩ = none := by
      rw [bootload_inner, Host_machine_start]
      simp only [tmBind_ok (Host_start_ok (List.replicate 100 1) 0
        [Client2Host.SectorErased] [])]
      exact tmBind_none hsec
    simp only [bootload, hin]

theorem c10_host_tail_panic_witness :
    ((0 : Nat) < (List.replicate 100 (1 : Nat)).length ∧
      (List.replicate 100 (1 : Nat)).length < 0 + 256 ∧
      Host.write_next_chunk ⟨⟨List.replicate 100 1, 0⟩, [], []⟩ = none) ∧
    bootload Host.machine 1 ⟨⟨List.replicate 100 1, 0⟩,
      [Client2Host.Starting, Client2Host.SectorErased], []⟩ = none :=
  ⟨⟨by decide, by decide,
     c10_host_tail_panic.1 (List.replicate 100 1) 0 [] [] (by decide) (by decide)⟩,
   c10_host_tail_panic.2⟩

/-- C7 counterexample: an EraseSector message that passes every geometric
check of the skeleton (addr = 0 is sector-aligned, len = SECTOR_SIZE, addr at
or above the range start) but whose addr differs from the sector start the
Client derived from its own cursor (position 4096) is rejected by
Client::erase_sector with an error - no erase is applied and no SectorErased
is sent - refuting the claim that the Device applies the erase while checking
only the geometric conditions. -/
theorem c7_counterexample :
    stepSectorHeaderGood 4096 0 0 4096 = true ∧
    Client.erase_sector 4096 4096 ⟨⟨4096, some 8192, List.replicate 8192 0⟩,
        [Host2Client.EraseSector 0 4096], []⟩ =
      some (Except.error (), ⟨⟨4096, some 8192, List.replicate 8192 0⟩, [], []⟩) := by
  constructor
  · decide
  · rfl

/-- C7 as amended: the generic skeleton's step_sector header validation is a
function of the geometry constants and the received start/len alone - it
accepts exactly sector-aligned starts at or above the range start with
len = SECTOR_SIZE, with no cursor consulted and no upper range bound - while
the example bootloader's Client does cross-check the received addr against
the sector start derived from its own cursor via next_sector, rejecting any
mismatch at erase time with an error that leaves its state unchanged. -/
theorem c7_erase_validation :
    (∀ (sectorSize rangeStart start len : Nat),
      stepSectorHeaderGood sectorSize rangeStart start len = true ↔
        (start % sectorSize = 0 ∧ len = sectorSize ∧ rangeStart ≤ start)) ∧
    (∀ (st : Client) (sector_start sector_len addr len : Nat)
       (rest : List Host2Client) (out : List Client2Host),
      ¬(addr = sector_start ∧ len = sector_len) →
      Client.erase_sector sector_start sector_len
          ⟨st, Host2Client.EraseSector addr len :: rest, out⟩ =
        some (Except.error (), ⟨st, rest, out⟩)) := by
  constructor
  · intro sectorSize rangeStart start len
    simp [stepSectorHeaderGood, Bool.and_eq_true, decide_eq_true_eq, and_assoc]
  · intro st sector_start sector_len addr len rest out h
    simp only [Client.erase_sector]
    rw [if_neg h]

theorem c7_erase_validation_witness :
    stepSectorHeaderGood 4096 0 8192 4096 = true ∧
    Client.erase_sector 4096 4096 ⟨⟨4096, some 8192, []⟩,
        [Host2Client.EraseSector 0 4096], []⟩ =
      some (Except.error (), ⟨⟨4096, some 8192, []⟩, [], []⟩) :=
  ⟨(c7_erase_validation.1 4096 0 8192 4096).mpr (by decide),
   c7_erase_validation.2 ⟨4096, some 8192, []⟩ 4096 4096 0 4096 [] [] (by decide)⟩

/-- C8 counterexample: the claim asserts a (data, crc) pair exists for which
the devices's integrity check fails; but the skeleton's check_crc is a
placeholder that accepts every pair, so no such pair exists. -/
theorem c8_counterexample :
    ¬ ∃ (data : List Nat) (crc : Nat), check_crc data crc = Except.error () := by
  intro ⟨d, c, h⟩
  exact absurd h (by simp [check_crc])

/-- C8 as amended: in step_sector the integrity check is invoked on
(data, crc) before the physical write - a Chunk reaches the write exactly
when its start matches the running cursor and its data is nonempty, the
check_crc outcome contributing nothing - but the reference check_crc is a
placeholder that accepts every (data, crc) pair, so a tag mismatch never
occurs and the reject-before-write path is unreachable. -/
theorem c8_integrity_placeholder :
    (∀ (data : List Nat) (crc : Nat), check_crc data crc = Except.ok ()) ∧
    (∀ (now cstart : Nat) (cdata : List Nat) (ccrc : Nat),
      stepChunkValidate now (ToBootloader.Chunk cstart cdata ccrc) =
          Except.ok (cstart, cdata) ↔ (cstart = now ∧ cdata.length ≠ 0)) := by
  constructor
  · intro data crc
    rfl
  · intro now cstart cdata ccrc
    by_cases hc : cstart = now ∧ cdata.length ≠ 0 <;>
      simp [stepChunkValidate, check_crc, hc]

theorem c8_integrity_placeholder_witness :
    check_crc [1, 2, 3] 999 = Except.ok () ∧
    stepChunkValidate 0 (ToBootloader.Chunk 0 [7] 12345) = Except.ok (0, [7]) :=
  ⟨c8_integrity_placeholder.1 [1, 2, 3] 999,
   (c8_integrity_placeholder.2 0 0 [7] 12345).mpr (by decide)⟩
